import Mathlib

/-!
Verification of the content-chunking and document-splicing core of the
DevOps_learning note-taking scripts (`scripts/smart_learn.py` and
`scripts/smart_learn_v3.py`).

Strings are modelled as `List Char`.  File I/O is modelled by passing the
document text in and out as a value: a Python function that reads the notes
file, edits the text and writes it back becomes a Lean function from the
document text to the new document text (plus the success flag it returns).
Python regular-expression substitution (`re.sub` / `re.subn`) and
`str.replace` are modelled by an explicit left-to-right scan with a
deterministic matcher; the two regexes used by the scripts
(`<section id="..."[^>]*>.*?</section>` and `</ul>\s*</nav>`) are
deterministic in the sense that backtracking can never change the match, so
the scan is a faithful model.  Recursions that are not structural use a fuel
argument, always instantiated with (at least) the length of the input, which
is enough because every step consumes at least one character.
-/

set_option maxHeartbeats 1000000

namespace SmartLearn

/-- The ASCII whitespace characters recognised by Python's `str.strip` and
`\s` (for the ASCII range, which is all the scripts' markers use). -/
def isWS (c : Char) : Bool :=
  c = ' ' || c = '\t' || c = '\n' || c = '\r' || c = '\x0b' || c = '\x0c'

/-- Python `str.strip()`: drop leading and trailing whitespace. -/
def pyStrip (l : List Char) : List Char :=
  ((l.dropWhile isWS).reverse.dropWhile isWS).reverse

/-- The paragraph delimiter `"\n\n"`. -/
def nl2 : List Char := ['\n', '\n']

/-- Python `content.split('\n\n')`: split on non-overlapping occurrences of
the two-newline delimiter, scanning left to right. -/
def splitOnDelim : List Char → List (List Char)
  | [] => [[]]
  | [c] => [[c]]
  | c₁ :: c₂ :: rest =>
    if c₁ = '\n' ∧ c₂ = '\n' then [] :: splitOnDelim rest
    else
      match splitOnDelim (c₂ :: rest) with
      | h :: t => (c₁ :: h) :: t
      | [] => [[c₁]]

/-- The paragraph-accumulation loop shared by both versions of
`chunk_content`: `cur` is Python's `current_chunk`; a chunk is emitted
(stripped) whenever the next paragraph no longer fits, and the trailing
buffer is emitted at the end. -/
def accumChunks (size : Nat) : List (List Char) → List Char → List (List Char)
  | [], cur => if cur = [] then [] else [pyStrip cur]
  | p :: ps, cur =>
    if cur.length + p.length < size then
      accumChunks size ps (cur ++ p ++ nl2)
    else
      (if cur = [] then [] else [pyStrip cur]) ++ accumChunks size ps (p ++ nl2)

/-- `for i in range(0, len(chunk), size): slices.append(chunk[i:i+size])`,
with fuel (the wrapper `sliceBy` supplies `l.length`, which suffices for
`size > 0`; the scripts only call this with `size = 6000`). -/
def sliceByFuel (size : Nat) : Nat → List Char → List (List Char)
  | 0, _ => []
  | _ + 1, [] => []
  | fuel + 1, c :: cs => (c :: cs).take size :: sliceByFuel size fuel ((c :: cs).drop size)

/-- Fixed-size force-splitting of one oversized chunk. -/
def sliceBy (size : Nat) (l : List Char) : List (List Char) :=
  sliceByFuel size l.length l

/-- The final pass of `smart_learn.py`'s `chunk_content`: any chunk longer
than the limit is force-split into fixed-size slices. -/
def forceSplit (size : Nat) (chunks : List (List Char)) : List (List Char) :=
  (chunks.map (fun c => if size < c.length then sliceBy size c else [c])).flatten

/-- `chunk_content` from `scripts/smart_learn.py` (lines 345-375): short
content is returned as a single chunk; otherwise paragraphs are accumulated
and any remaining oversized chunk is force-split. -/
def chunk_content (content : List Char) (size : Nat) : List (List Char) :=
  if content.length ≤ size then [content]
  else forceSplit size (accumChunks size (splitOnDelim content) [])

/-- `chunk_content` from `scripts/smart_learn_v3.py` (lines 288-308): same
accumulation with the fixed `CHUNK_SIZE = 6000`, but with no force-split
pass. -/
def chunk_content_v3 (content : List Char) : List (List Char) :=
  if content.length ≤ 6000 then [content]
  else accumChunks 6000 (splitOnDelim content) []

/-!  ## The generic substitution scanner

`scanSub M fuel l` models Python's left-to-right non-overlapping
substitution: at each position the matcher `M` is tried; on `some
(matched, replacement, rest)` (with the guarantee `input = matched ++ rest`)
the replacement is emitted and scanning resumes at `rest`; otherwise one
character is copied.  The second component counts the matches, as
`re.subn` does. -/

def scanSub (M : List Char → Option (List Char × List Char × List Char)) :
    Nat → List Char → List Char × Nat
  | 0, l => (l, 0)
  | _ + 1, [] => ([], 0)
  | fuel + 1, c :: cs =>
    match M (c :: cs) with
    | some (_, rep, r) =>
      let p := scanSub M fuel r
      (rep ++ p.1, p.2 + 1)
    | none =>
      let p := scanSub M fuel cs
      (c :: p.1, p.2)

/-- A well-behaved matcher: a match decomposes its input and is nonempty. -/
def MatcherOK (M : List Char → Option (List Char × List Char × List Char)) : Prop :=
  ∀ w m rep r, M w = some (m, rep, r) → w = m ++ r ∧ m ≠ []

/-- First occurrence of `pat`: `splitFirst pat l = some (u, v)` means
`l = u ++ pat ++ v` with `u` shortest.  Models Python's `find`. -/
def splitFirst (pat : List Char) : List Char → Option (List Char × List Char)
  | [] => none
  | c :: cs =>
    if pat.isPrefixOf (c :: cs) then some ([], (c :: cs).drop pat.length)
    else
      match splitFirst pat cs with
      | some (u, v) => some (c :: u, v)
      | none => none

/-- Python's `pat in l` substring test (for nonempty `pat`). -/
def hasSub (pat l : List Char) : Bool := (splitFirst pat l).isSome

/-- The substring `find_section_in_file` actually looks for: `id="<sid>"`. -/
def idPat (sid : List Char) : List Char := "id=\"".toList ++ sid ++ ['"']

/-- `find_section_in_file` from `smart_learn_v3.py` (lines 389-393): a bare
substring test for `id="<sid>"` on the document text. -/
def find_section_in_file (content sid : List Char) : Bool :=
  hasSub (idPat sid) content

/-- The literal prefix of the section regex: `<section id="<sid>"`. -/
def openPre (sid : List Char) : List Char := "<section id=\"".toList ++ sid ++ ['"']

def closeSec : List Char := "</section>".toList

/-- Matching `<section id="<sid>"[^>]*>` at the head of `w`: the literal
prefix, then everything up to the first `>` (which is exactly what the
greedy `[^>]*` followed by `>` matches), then that `>`. -/
def matchOpen (sid w : List Char) : Option (List Char × List Char) :=
  if (openPre sid).isPrefixOf w then
    match splitFirst ['>'] (w.drop (openPre sid).length) with
    | some (attrs, rest) => some (openPre sid ++ attrs ++ ['>'], rest)
    | none => none
  else none

/-- The text `add_content_to_section` splices in before the closing tag:
a timestamp comment, the new content, and indentation. -/
def addition (ts newContent : List Char) : List Char :=
  "\n                <!-- Added on ".toList ++ ts ++ " -->\n".toList ++
    newContent ++ "\n                ".toList

/-- The matcher for the regex `(<section id="<sid>"[^>]*>.*?)(</section>)`
with `re.DOTALL`: the opening tag, then the lazy body up to the first
`</section>`.  The replacement is group 1, the timestamped addition, and
group 2, as built by `add_content_to_section`'s `replace_section`. -/
def secM (sid ts newContent w : List Char) :
    Option (List Char × List Char × List Char) :=
  (matchOpen sid w).bind fun tr =>
    (splitFirst closeSec tr.2).bind fun ba =>
      some (tr.1 ++ ba.1 ++ closeSec,
            tr.1 ++ ba.1 ++ addition ts newContent ++ closeSec,
            ba.2)

/-- `add_content_to_section` from `smart_learn_v3.py` (lines 396-421):
`re.subn` over the whole document; on at least one match the new text is
written and `True` returned, otherwise the document is left as it was and
`False` returned.  The timestamp is passed in as `ts`. -/
def add_content_to_section (sid newContent ts doc : List Char) : List Char × Bool :=
  let r := scanSub (secM sid ts newContent) doc.length doc
  if 0 < r.2 then (r.1, true) else (doc, false)

/-- Matcher for `re.findall(r'<section id="[^"]*" class="section">', ...)`:
the literal prefix, a run of non-quote characters, then the literal tail. -/
def countM (w : List Char) : Option (List Char × List Char × List Char) :=
  if "<section id=\"".toList.isPrefixOf w then
    let rest := w.drop "<section id=\"".toList.length
    let sid := rest.takeWhile (fun c => c ≠ '"')
    let rest2 := rest.drop sid.length
    if "\" class=\"section\">".toList.isPrefixOf rest2 then
      let m := "<section id=\"".toList ++ sid ++ "\" class=\"section\">".toList
      some (m, m, rest2.drop "\" class=\"section\">".toList.length)
    else none
  else none

/-- `len(re.findall(r'<section id="[^"]*" class="section">', content))`. -/
def section_count (content : List Char) : Nat :=
  (scanSub countM content.length content).2

def ulClose : List Char := "</ul>".toList
def navClose : List Char := "</nav>".toList

/-- The ToC entry `create_new_section` builds. -/
def tocEntry (sid title : List Char) : List Char :=
  "                <li><a href=\"#".toList ++ sid ++ "\">".toList ++
    title ++ "</a></li>\n".toList

/-- Matcher for the regex `(</ul>\s*</nav>)`: the literal `</ul>`, a greedy
whitespace run, then the literal `</nav>` (backtracking cannot help, since
`</nav>` starts with a non-whitespace character).  The replacement is the
ToC entry, twelve spaces, and the matched group, as in
`re.sub(toc_pattern, toc_entry + r'            \1', content)`. -/
def tocM (sid title w : List Char) : Option (List Char × List Char × List Char) :=
  if ulClose.isPrefixOf w then
    let rest := w.drop ulClose.length
    let ws := rest.takeWhile isWS
    let rest2 := rest.drop ws.length
    if navClose.isPrefixOf rest2 then
      let m := ulClose ++ ws ++ navClose
      some (m, tocEntry sid title ++ "            ".toList ++ m,
            rest2.drop navClose.length)
    else none
  else none

/-- The new section block `create_new_section` synthesises. -/
def newSection (sid title newContent ts : List Char) (num : Nat) : List Char :=
  "\n            <!-- New Section Added on ".toList ++ ts ++
    " -->\n            <section id=\"".toList ++ sid ++
    "\" class=\"section\">\n                <h2>".toList ++
    Nat.toDigits 10 num ++ ". ".toList ++ title ++
    "</h2>\n\n".toList ++ newContent ++ "\n            </section>\n".toList

/-- Matcher for a literal substring with a fixed replacement: `str.replace`
replaces every non-overlapping occurrence, left to right. -/
def litM (pat rep w : List Char) : Option (List Char × List Char × List Char) :=
  if pat.isPrefixOf w then some (pat, rep, w.drop pat.length) else none

/-- Python `l.replace(pat, rep)` (for nonempty `pat`). -/
def pyReplace (pat rep l : List Char) : List Char :=
  (scanSub (litM pat rep) l.length l).1

def mainClose : List Char := "</main>".toList

/-- `create_new_section` from `smart_learn_v3.py` (lines 424-459): count the
existing sections, append a ToC entry before the `</ul>...</nav>` pair,
insert the new section block before `</main>`, and return `True`
unconditionally.  The timestamp is passed in as `ts`. -/
def create_new_section (sid title newContent ts doc : List Char) : List Char × Bool :=
  let num := section_count doc + 1
  let c2 := (scanSub (tocM sid title) doc.length doc).1
  let c3 := pyReplace mainClose
    (newSection sid title newContent ts num ++ "        </main>".toList) c2
  (c3, true)

/-- The insertion marker of `smart_learn.py`'s topic files. -/
def contentMarker : List Char := "<!-- CONTENT_MARKER -->".toList

/-- The document-editing core of `update_topic_file` from
`scripts/smart_learn.py` (lines 706-730): insert the generated HTML before
`<!-- CONTENT_MARKER -->` when the marker is present, otherwise before
`</main>`.  `newContent` is the concatenated generated section HTML. -/
def update_topic_file (newContent doc : List Char) : List Char :=
  if hasSub contentMarker doc then
    pyReplace contentMarker (newContent ++ "\n        ".toList ++ contentMarker) doc
  else
    pyReplace mainClose (newContent ++ "\n        </main>".toList) doc

/-- `pat` occurs (as a contiguous substring) in `l`. -/
def Occurs (pat l : List Char) : Prop := ∃ u v, l = u ++ pat ++ v

/-- The bare section-opening marker `<section`: "exactly one section" means
exactly one occurrence of this marker. -/
def secOpen : List Char := "<section".toList

/-- The standard opening tag of a section in `DevOps_Notes.html`, as
generated by `create_new_section` itself. -/
def openTagOf (sid : List Char) : List Char :=
  openPre sid ++ " class=\"section\">".toList

/-- A run of sections with anchor `sid`: each entry is (body, trailing text
after the closing tag). -/
def secsBlock (sid : List Char) (bs : List (List Char × List Char)) : List Char :=
  (bs.map (fun s => openTagOf sid ++ s.1 ++ closeSec ++ s.2)).flatten

/-- The same run of sections after `add_content_to_section` has inserted the
timestamped addition before every closing tag. -/
def secsBlockIns (sid ts nc : List Char) (bs : List (List Char × List Char)) : List Char :=
  (bs.map (fun s => openTagOf sid ++ s.1 ++ addition ts nc ++ closeSec ++ s.2)).flatten

/-- Rebuild the accumulation buffer from a group of paragraphs: each
paragraph followed by the `"\n\n"` the loop appends. -/
def glueParas (g : List (List Char)) : List Char :=
  (g.map (fun p => p ++ nl2)).flatten

/-- Number of positions at which `pat` starts an occurrence in `l`. -/
def occCount (pat : List Char) : List Char → Nat
  | [] => 0
  | c :: cs => (if pat.isPrefixOf (c :: cs) then 1 else 0) + occCount pat cs

/-- The `"\n        "` glue that `update_topic_file` inserts between the new
content and the re-inserted marker. -/
def pad8 : List Char := "\n        ".toList

end SmartLearn

namespace SmartLearn

/-! ## Basic facts about prefixes, occurrences and the first-occurrence search -/

lemma boolEq_of_iff {a b : Bool} (h : a = true ↔ b = true) : a = b := by
  cases a <;> cases b <;> simp_all

/-- Whether `pat` is a prefix only depends on the first `pat.length`
characters: past a block at least as long as the pattern, the context is
irrelevant. -/
lemma prefixOf_append_left {pat u : List Char} (v : List Char)
    (h : pat.length ≤ u.length) :
    pat.isPrefixOf (u ++ v) = pat.isPrefixOf u := by
  apply boolEq_of_iff
  rw [List.isPrefixOf_iff_prefix, List.isPrefixOf_iff_prefix]
  constructor
  · intro hp
    rw [List.prefix_iff_eq_take] at hp ⊢
    rwa [List.take_append_of_le_length h] at hp
  · intro hp
    exact hp.trans (List.prefix_append u v)

lemma not_prefixOf_of_getElem_ne {pat l : List Char} {k : Nat}
    (hk : k < pat.length) (hl : k < l.length) (hne : pat[k] ≠ l[k]) :
    ¬ pat.isPrefixOf l = true := by
  intro h
  rw [List.isPrefixOf_iff_prefix] at h
  obtain ⟨t, rfl⟩ := h
  exact hne (List.getElem_append_left hk).symm

/-- No occurrence of `c₀ :: pat'` can start at a position of `a` holding a
character other than `c₀`, whatever follows `a`. -/
lemma not_prefixOf_drop_of_ne {c0 : Char} {pat' a : List Char} {p : Nat}
    (b : List Char) (hp : p < a.length) (hne : a[p] ≠ c0) :
    ¬ (c0 :: pat').isPrefixOf ((a ++ b).drop p) = true := by
  rw [List.drop_append_of_le_length (le_of_lt hp)]
  have hlen : 0 < (a.drop p ++ b).length := by
    simp only [List.length_append, List.length_drop]
    omega
  apply not_prefixOf_of_getElem_ne (k := 0) (by simp) hlen
  have h0 : 0 < (a.drop p).length := by simp; omega
  rw [List.getElem_append_left h0, List.getElem_drop]
  simpa using fun h => hne h.symm

/-- If no character of `a` equals the head of the pattern, no occurrence of
the pattern starts inside `a`, whatever follows. -/
lemma noOcc_of_all_ne {c0 : Char} {pat' a : List Char}
    (hall : ∀ c ∈ a, c ≠ c0) (b : List Char) :
    ∀ p < a.length, ¬ (c0 :: pat').isPrefixOf ((a ++ b).drop p) = true := by
  intro p hp
  exact not_prefixOf_drop_of_ne b hp (hall _ (List.getElem_mem hp))

lemma occurs_iff {pat l : List Char} :
    Occurs pat l ↔ ∃ p, p ≤ l.length ∧ pat.isPrefixOf (l.drop p) = true := by
  constructor
  · rintro ⟨u, v, rfl⟩
    refine ⟨u.length, by simp, ?_⟩
    rw [List.append_assoc, List.drop_left, List.isPrefixOf_iff_prefix]
    exact List.prefix_append pat v
  · rintro ⟨p, hp, hpre⟩
    rw [List.isPrefixOf_iff_prefix] at hpre
    obtain ⟨v, hv⟩ := hpre
    exact ⟨l.take p, v, by rw [List.append_assoc, hv, List.take_append_drop]⟩

lemma occurs_append_right {pat b : List Char} (a : List Char)
    (h : Occurs pat b) : Occurs pat (a ++ b) := by
  obtain ⟨u, v, rfl⟩ := h
  exact ⟨a ++ u, v, by simp⟩

lemma occurs_append_left {pat a : List Char} (b : List Char)
    (h : Occurs pat a) : Occurs pat (a ++ b) := by
  obtain ⟨u, v, rfl⟩ := h
  exact ⟨u, v ++ b, by simp⟩

lemma occurs_trans {a b c : List Char} (hab : Occurs a b) (hbc : Occurs b c) :
    Occurs a c := by
  obtain ⟨u, v, rfl⟩ := hab
  obtain ⟨x, y, rfl⟩ := hbc
  exact ⟨x ++ u, v ++ y, by simp⟩

lemma not_occurs_nil {pat : List Char} (h : pat ≠ []) : ¬ Occurs pat [] := by
  rintro ⟨u, v, hv⟩
  have := congrArg List.length hv
  simp only [List.length_nil, List.length_append] at this
  exact h (List.eq_nil_of_length_eq_zero (by omega))

/-- If `pat` occurs in `a ++ b` but no occurrence starts inside `a`, then it
occurs in `b`. -/
lemma occurs_of_append {pat a b : List Char}
    (hocc : Occurs pat (a ++ b))
    (h : ∀ p < a.length, ¬ pat.isPrefixOf ((a ++ b).drop p) = true) :
    Occurs pat b := by
  rw [occurs_iff] at hocc
  obtain ⟨p, hp, hpre⟩ := hocc
  rcases lt_or_ge p a.length with hlt | hge
  · exact absurd hpre (h p hlt)
  · rw [occurs_iff]
    refine ⟨p - a.length, ?_, ?_⟩
    · simp only [List.length_append] at hp; omega
    · have hdrop : (a ++ b).drop p = b.drop (p - a.length) := by
        conv_lhs => rw [show p = a.length + (p - a.length) by omega,
          ← List.drop_drop, List.drop_left]
      rwa [hdrop] at hpre

lemma occurs_cons_of_not_head {pat : List Char} {c : Char} {cs : List Char}
    (hocc : Occurs pat (c :: cs)) (h : ¬ pat.isPrefixOf (c :: cs) = true) :
    Occurs pat cs := by
  obtain ⟨u, v, hv⟩ := hocc
  cases u with
  | nil =>
    exfalso
    apply h
    rw [List.isPrefixOf_iff_prefix]
    exact ⟨v, by simpa using hv.symm⟩
  | cons d u' =>
    simp only [List.cons_append, List.cons.injEq] at hv
    exact ⟨u', v, hv.2⟩

lemma splitFirst_sound {pat : List Char} :
    ∀ {l u v : List Char}, splitFirst pat l = some (u, v) → l = u ++ pat ++ v := by
  intro l
  induction l with
  | nil => intro u v h; simp [splitFirst] at h
  | cons c cs ih =>
    intro u v h
    rw [splitFirst] at h
    split at h
    · next hpre =>
      simp only [Option.some.injEq, Prod.mk.injEq] at h
      obtain ⟨rfl, rfl⟩ := h
      rw [List.isPrefixOf_iff_prefix, List.prefix_iff_eq_take] at hpre
      conv_lhs => rw [← List.take_append_drop pat.length (c :: cs)]
      rw [← hpre]
      simp
    · next hpre =>
      cases hrec : splitFirst pat cs with
      | none => rw [hrec] at h; simp at h
      | some uv =>
        obtain ⟨u', v'⟩ := uv
        rw [hrec] at h
        simp only [Option.some.injEq, Prod.mk.injEq] at h
        obtain ⟨rfl, rfl⟩ := h
        simp [ih hrec]

lemma splitFirst_isSome_of_occurs {pat : List Char} (hpne : pat ≠ []) :
    ∀ {l : List Char}, Occurs pat l → (splitFirst pat l).isSome = true := by
  intro l
  induction l with
  | nil => intro h; exact absurd h (not_occurs_nil hpne)
  | cons c cs ih =>
    intro h
    rw [splitFirst]
    split
    · simp
    · next hpre =>
      have := ih (occurs_cons_of_not_head h hpre)
      cases hrec : splitFirst pat cs with
      | none => rw [hrec] at this; simp at this
      | some uv => cases uv; simp

lemma hasSub_iff_occurs {pat l : List Char} (hpne : pat ≠ []) :
    hasSub pat l = true ↔ Occurs pat l := by
  constructor
  · intro h
    rw [hasSub, Option.isSome_iff_exists] at h
    obtain ⟨⟨u, v⟩, huv⟩ := h
    exact ⟨u, v, splitFirst_sound huv⟩
  · intro h
    exact splitFirst_isSome_of_occurs hpne h

/-- The first-occurrence search finds an exhibited occurrence when no earlier
position starts one. -/
lemma splitFirst_first {pat : List Char} (hpne : pat ≠ []) :
    ∀ (u v : List Char),
      (∀ p < u.length, ¬ pat.isPrefixOf ((u ++ pat ++ v).drop p) = true) →
      splitFirst pat (u ++ pat ++ v) = some (u, v) := by
  intro u
  induction u with
  | nil =>
    intro v _
    cases pat with
    | nil => exact absurd rfl hpne
    | cons c pat' =>
      have hpre : (c :: pat').isPrefixOf (c :: (pat' ++ v)) = true := by
        rw [List.isPrefixOf_iff_prefix, show c :: (pat' ++ v) = (c :: pat') ++ v by simp]
        exact List.prefix_append _ v
      simp only [List.nil_append, List.cons_append, splitFirst, hpre, if_true]
      simp [List.drop_left]
  | cons c u' ih =>
    intro v h
    have h0 := h 0 (by simp)
    simp only [List.drop_zero] at h0
    simp only [List.cons_append, splitFirst]
    rw [if_neg (by simp only [List.append_assoc] at h0; simpa using h0)]
    have hrec := ih v (fun p hp => by
      have := h (p + 1) (by simp; omega)
      simpa using this)
    exact (by rw [hrec] :
      (match splitFirst pat (u' ++ pat ++ v) with
        | some (u, v) => some (c :: u, v)
        | none => none) = some (c :: u', v))

end SmartLearn

namespace SmartLearn

/-! ## Generic facts about the substitution scanner -/

lemma scanSub_cons_none {M} {f : Nat} {c : Char} {cs : List Char}
    (h : M (c :: cs) = none) :
    scanSub M (f + 1) (c :: cs) = (c :: (scanSub M f cs).1, (scanSub M f cs).2) := by
  simp [scanSub, h]

lemma scanSub_cons_some {M} {f : Nat} {c : Char} {cs m rep r : List Char}
    (h : M (c :: cs) = some (m, rep, r)) :
    scanSub M (f + 1) (c :: cs) =
      (rep ++ (scanSub M f r).1, (scanSub M f r).2 + 1) := by
  simp [scanSub, h]

/-- With enough fuel, the scan does not depend on the exact fuel value. -/
lemma scanSub_fuel {M} (hM : MatcherOK M) :
    ∀ (f₁ : Nat) (l : List Char) (f₂ : Nat), l.length ≤ f₁ → l.length ≤ f₂ →
      scanSub M f₁ l = scanSub M f₂ l := by
  intro f₁
  induction f₁ with
  | zero =>
    intro l f₂ h1 _
    have : l = [] := List.eq_nil_of_length_eq_zero (by omega)
    subst this
    cases f₂ <;> simp [scanSub]
  | succ f ih =>
    intro l f₂ h1 h2
    cases l with
    | nil => cases f₂ <;> simp [scanSub]
    | cons c cs =>
      cases f₂ with
      | zero => simp at h2
      | succ f₂' =>
        simp only [scanSub]
        cases hm : M (c :: cs) with
        | none =>
          have := ih cs f₂' (by simp at h1; omega) (by simp at h2; omega)
          simp [this]
        | some x =>
          obtain ⟨m, rep, r⟩ := x
          obtain ⟨heq, hne⟩ := hM _ _ _ _ hm
          have hr : r.length ≤ f ∧ r.length ≤ f₂' := by
            have := congrArg List.length heq
            simp only [List.length_cons, List.length_append] at this
            have hm1 : 1 ≤ m.length := by
              cases m with
              | nil => exact absurd rfl hne
              | cons _ _ => simp
            simp only [List.length_cons] at h1 h2
            omega
          have := ih r f₂' hr.1 hr.2
          simp [this]

/-- If no match starts inside `a`, the scan copies `a` verbatim and
continues on the remainder. -/
lemma scanSub_copy {M} (hM : MatcherOK M) :
    ∀ (a v : List Char) (f : Nat),
      (∀ p < a.length, M ((a ++ v).drop p) = none) →
      a.length + v.length ≤ f →
      scanSub M f (a ++ v) =
        (a ++ (scanSub M v.length v).1, (scanSub M v.length v).2) := by
  intro a
  induction a with
  | nil =>
    intro v f _ hf
    simp only [List.nil_append]
    rw [scanSub_fuel hM f v v.length (by simpa using hf) le_rfl]
  | cons c a' ih =>
    intro v f h hf
    cases f with
    | zero => simp at hf
    | succ f' =>
      have h0 := h 0 (by simp)
      simp only [List.drop_zero, List.cons_append] at h0
      have hrec := ih v f' (fun p hp => by
        have := h (p + 1) (by simp; omega)
        simpa using this) (by simp at hf; omega)
      rw [List.cons_append, scanSub_cons_none h0, hrec]
      simp

/-- If no match starts anywhere, the scan is the identity with zero
matches. -/
lemma scanSub_none {M} (hM : MatcherOK M) (l : List Char) (f : Nat)
    (h : ∀ p < l.length, M (l.drop p) = none) (hf : l.length ≤ f) :
    scanSub M f l = (l, 0) := by
  have := scanSub_copy hM l [] f (by simpa using h) (by simpa using hf)
  simpa [scanSub] using this

/-- A match at the head fires and the scan continues after it. -/
lemma scanSub_match {M} (hM : MatcherOK M) {w m rep r : List Char} {f : Nat}
    (hm : M w = some (m, rep, r)) (hf : w.length ≤ f) :
    scanSub M f w =
      (rep ++ (scanSub M r.length r).1, (scanSub M r.length r).2 + 1) := by
  obtain ⟨heq, hne⟩ := hM _ _ _ _ hm
  cases w with
  | nil =>
    exfalso
    cases m with
    | nil => exact hne rfl
    | cons _ _ => simp at heq
  | cons c cs =>
    cases f with
    | zero => simp at hf
    | succ f' =>
      simp only [scanSub, hm]
      have hr : r.length ≤ f' := by
        have := congrArg List.length heq
        simp only [List.length_cons, List.length_append] at this
        have hm1 : 1 ≤ m.length := by
          cases m with
          | nil => exact absurd rfl hne
          | cons _ _ => simp
        simp only [List.length_cons] at hf
        omega
      rw [scanSub_fuel hM f' r r.length hr le_rfl]

end SmartLearn

namespace SmartLearn

/-! ## The matchers are well behaved -/

lemma eq_append_drop_of_prefixOf {pat l : List Char}
    (h : pat.isPrefixOf l = true) : l = pat ++ l.drop pat.length := by
  rw [List.isPrefixOf_iff_prefix, List.prefix_iff_eq_take] at h
  conv_lhs => rw [← List.take_append_drop pat.length l, ← h]

lemma matcherOK_litM {pat rep : List Char} (hpne : pat ≠ []) :
    MatcherOK (litM pat rep) := by
  intro w m r rest h
  rw [litM] at h
  split at h
  · next hpre =>
    simp only [Option.some.injEq, Prod.mk.injEq] at h
    obtain ⟨rfl, -, rfl⟩ := h
    exact ⟨eq_append_drop_of_prefixOf hpre, hpne⟩
  · simp at h

lemma matchOpen_shape {sid w tag rest : List Char}
    (h : matchOpen sid w = some (tag, rest)) :
    w = tag ++ rest ∧ ∃ attrs, tag = openPre sid ++ attrs ++ ['>'] := by
  rw [matchOpen] at h
  split at h
  · next hpre =>
    cases hsp : splitFirst ['>'] (w.drop (openPre sid).length) with
    | none => rw [hsp] at h; simp at h
    | some av =>
      obtain ⟨attrs, rest'⟩ := av
      rw [hsp] at h
      simp only [Option.some.injEq, Prod.mk.injEq] at h
      obtain ⟨rfl, rfl⟩ := h
      have hd := splitFirst_sound hsp
      constructor
      · conv_lhs => rw [eq_append_drop_of_prefixOf hpre, hd]
        simp
      · exact ⟨attrs, rfl⟩
  · simp at h

lemma openPre_ne_nil (sid : List Char) : openPre sid ≠ [] := by
  simp [openPre]

lemma secM_shape {sid ts nc w m rep rest : List Char}
    (h : secM sid ts nc w = some (m, rep, rest)) :
    w = m ++ rest ∧
    ∃ attrs body, m = (openPre sid ++ attrs ++ ['>']) ++ body ++ closeSec ∧
      rep = (openPre sid ++ attrs ++ ['>']) ++ body ++ addition ts nc ++ closeSec := by
  rw [secM] at h
  cases hmo : matchOpen sid w with
  | none => rw [hmo] at h; simp at h
  | some tr =>
    obtain ⟨tag, rest'⟩ := tr
    rw [hmo] at h
    simp only [Option.some_bind] at h
    cases hsp : splitFirst closeSec rest' with
    | none => rw [hsp] at h; simp at h
    | some ba =>
      obtain ⟨body, after⟩ := ba
      rw [hsp] at h
      simp only [Option.some_bind, Option.some.injEq, Prod.mk.injEq] at h
      obtain ⟨rfl, rfl, rfl⟩ := h
      obtain ⟨hw, attrs, rfl⟩ := matchOpen_shape hmo
      have hr := splitFirst_sound hsp
      refine ⟨?_, attrs, body, by simp, by simp⟩
      rw [hw, hr]
      simp

lemma matcherOK_secM {sid ts nc : List Char} : MatcherOK (secM sid ts nc) := by
  intro w m rep rest h
  obtain ⟨hw, attrs, body, hm, -⟩ := secM_shape h
  refine ⟨hw, ?_⟩
  rw [hm]
  intro hnil
  have := congrArg List.length hnil
  simp [openPre] at this

lemma ulClose_ne_nil : ulClose ≠ [] := by simp [ulClose]

lemma drop_length_takeWhile (p : Char → Bool) :
    ∀ l : List Char, l.drop (l.takeWhile p).length = l.dropWhile p := by
  intro l
  induction l with
  | nil => rfl
  | cons c cs ih =>
    by_cases hc : p c
    · simp [List.takeWhile_cons, List.dropWhile_cons, hc, ih]
    · simp [List.takeWhile_cons, List.dropWhile_cons, hc]

lemma tocM_shape {sid title w m rep rest : List Char}
    (h : tocM sid title w = some (m, rep, rest)) :
    w = m ++ rest ∧
    ∃ ws, (∀ c ∈ ws, isWS c = true) ∧ m = ulClose ++ ws ++ navClose ∧
      rep = tocEntry sid title ++ "            ".toList ++ m := by
  rw [tocM] at h
  split at h
  · next hpre =>
    dsimp only at h
    split at h
    · next hnav =>
      simp only [Option.some.injEq, Prod.mk.injEq] at h
      obtain ⟨rfl, rfl, rfl⟩ := h
      set rest1 := w.drop ulClose.length with hrest1
      refine ⟨?_, rest1.takeWhile isWS, ?_, rfl, rfl⟩
      · conv_lhs => rw [eq_append_drop_of_prefixOf hpre]
        rw [← hrest1]
        conv_lhs => rw [show rest1 = rest1.takeWhile isWS ++
          rest1.drop (rest1.takeWhile isWS).length from by
            rw [drop_length_takeWhile, List.takeWhile_append_dropWhile]]
        conv_lhs => rw [eq_append_drop_of_prefixOf hnav]
        simp
      · intro c hc
        exact List.mem_takeWhile_imp hc
    · simp at h
  · simp at h

lemma matcherOK_tocM {sid title : List Char} : MatcherOK (tocM sid title) := by
  intro w m rep rest h
  obtain ⟨hw, ws, -, hm, -⟩ := tocM_shape h
  refine ⟨hw, ?_⟩
  rw [hm]
  intro hnil
  have := congrArg List.length hnil
  simp [ulClose] at this

lemma matcherOK_countM : MatcherOK countM := by
  intro w m rep rest h
  rw [countM] at h
  split at h
  · next hpre =>
    dsimp only at h
    split at h
    · next hcls =>
      simp only [Option.some.injEq, Prod.mk.injEq] at h
      obtain ⟨rfl, -, rfl⟩ := h
      constructor
      · have h1 := eq_append_drop_of_prefixOf hpre
        have h2 : w.drop "<section id=\"".toList.length =
            (w.drop "<section id=\"".toList.length).takeWhile (fun c => c ≠ '"') ++
            (w.drop "<section id=\"".toList.length).drop
              ((w.drop "<section id=\"".toList.length).takeWhile (fun c => c ≠ '"')).length := by
          rw [drop_length_takeWhile, List.takeWhile_append_dropWhile]
        have h3 := eq_append_drop_of_prefixOf hcls
        conv_lhs => rw [h1]
        conv_lhs => rw [h2]
        conv_lhs => rw [h3]
        simp
      · intro hnil
        have := congrArg List.length hnil
        simp at this
    · simp at h
  · simp at h

end SmartLearn

namespace SmartLearn

/-! ## Scanning a document built from sections -/

lemma lit_split1 : "<section id=\"".toList = "<section".toList ++ " id=\"".toList := by decide

lemma lit_split2 : " class=\"section\">".toList = " class=\"section\"".toList ++ ['>'] := by decide

lemma secOpen_prefix_openPre (sid : List Char) : secOpen <+: openPre sid :=
  ⟨" id=\"".toList ++ sid ++ ['"'], by rw [openPre, lit_split1, secOpen]; simp⟩

lemma secM_none_of_not_openPre {sid ts nc w : List Char}
    (h : ¬ (openPre sid).isPrefixOf w = true) : secM sid ts nc w = none := by
  rw [secM, matchOpen, if_neg h]
  rfl

lemma secM_none_of_not_secOpen {sid ts nc w : List Char}
    (h : ¬ secOpen.isPrefixOf w = true) : secM sid ts nc w = none := by
  apply secM_none_of_not_openPre
  intro hpre
  apply h
  rw [List.isPrefixOf_iff_prefix] at hpre ⊢
  exact (secOpen_prefix_openPre sid).trans hpre

lemma openTagOf_eq (sid : List Char) :
    openTagOf sid = openPre sid ++ " class=\"section\"".toList ++ ['>'] := by
  rw [openTagOf, lit_split2, List.append_assoc]

lemma openTagOf_secOpen (sid : List Char) :
    openTagOf sid = secOpen ++ (" id=\"".toList ++ sid ++ "\" class=\"section\">".toList) := by
  rw [openTagOf, openPre, lit_split1, secOpen]
  have : ('"' :: " class=\"section\">".toList : List Char) = "\" class=\"section\">".toList := by
    decide
  simp [← this]

lemma attrs_no_gt : ∀ c ∈ " class=\"section\"".toList, c ≠ '>' := by decide

/-- Transfer a no-occurrence hypothesis to a longer context: whether an
occurrence starts inside `a` only depends on the next `pat.length`
characters, so a following block `t` at least that long settles it. -/
lemma noOcc_extend {pat a t : List Char} (X : List Char)
    (hlen : pat.length ≤ t.length)
    (h : ∀ p < a.length, ¬ pat.isPrefixOf ((a ++ t).drop p) = true) :
    ∀ p < a.length, ¬ pat.isPrefixOf ((a ++ t ++ X).drop p) = true := by
  intro p hp hpre
  apply h p hp
  have hple : p ≤ (a ++ t).length := by simp; omega
  rw [List.drop_append_of_le_length hple] at hpre
  rwa [prefixOf_append_left X (by simp [List.length_drop]; omega)] at hpre

/-- The section regex matches a well-formed section head, with the lazy body
ending at the first closing tag. -/
lemma secM_at_section {sid ts nc b : List Char} (rest : List Char)
    (hb : ∀ p < b.length, ¬ closeSec.isPrefixOf ((b ++ closeSec).drop p) = true) :
    secM sid ts nc (openTagOf sid ++ b ++ closeSec ++ rest) =
      some (openTagOf sid ++ b ++ closeSec,
            openTagOf sid ++ b ++ addition ts nc ++ closeSec,
            rest) := by
  have hw : openTagOf sid ++ b ++ closeSec ++ rest
      = openPre sid ++ (" class=\"section\"".toList ++ ['>'] ++ (b ++ closeSec ++ rest)) := by
    rw [openTagOf_eq]
    simp [List.append_assoc]
  have hpre : (openPre sid).isPrefixOf (openTagOf sid ++ b ++ closeSec ++ rest) = true := by
    rw [List.isPrefixOf_iff_prefix, hw]
    exact ⟨_, rfl⟩
  have hdrop : (openTagOf sid ++ b ++ closeSec ++ rest).drop (openPre sid).length
      = " class=\"section\"".toList ++ ['>'] ++ (b ++ closeSec ++ rest) := by
    rw [hw, List.drop_left]
  have hsp1 : splitFirst ['>']
      (" class=\"section\"".toList ++ ['>'] ++ (b ++ closeSec ++ rest)) =
      some (" class=\"section\"".toList, b ++ closeSec ++ rest) := by
    apply splitFirst_first (by simp)
    intro p hp
    have := @noOcc_of_all_ne '>' ([] : List Char) " class=\"section\"".toList
      attrs_no_gt (['>'] ++ (b ++ closeSec ++ rest)) p hp
    simpa [List.append_assoc] using this
  have hsp2 : splitFirst closeSec (b ++ closeSec ++ rest) = some (b, rest) := by
    apply splitFirst_first (by simp [closeSec])
    exact noOcc_extend rest (by simp [closeSec]) hb
  have hmo : matchOpen sid (openTagOf sid ++ b ++ closeSec ++ rest)
      = some (openTagOf sid, b ++ closeSec ++ rest) := by
    rw [matchOpen, if_pos hpre, hdrop, hsp1]
    show some (openPre sid ++ " class=\"section\"".toList ++ ['>'], b ++ closeSec ++ rest)
        = some (openTagOf sid, b ++ closeSec ++ rest)
    rw [← openTagOf_eq]
  rw [secM, hmo]
  simp only [Option.some_bind, hsp2]

/-- Between two docker sections (and after the last one), the trailing text
starts no match: a match would need a `<section` occurrence there. -/
lemma secM_none_in_mid {sid ts nc m : List Char} (X : List Char)
    (hm : ∀ p < m.length, ¬ secOpen.isPrefixOf ((m ++ secOpen).drop p) = true)
    (hX : X = [] ∨ ∃ Z, X = secOpen ++ Z) :
    ∀ p < m.length, secM sid ts nc ((m ++ X).drop p) = none := by
  intro p hp
  apply secM_none_of_not_secOpen
  intro hpre
  apply hm p hp
  rcases hX with rfl | ⟨Z, rfl⟩
  · simp only [List.append_nil] at hpre
    rw [List.drop_append_of_le_length (le_of_lt hp)]
    rw [List.isPrefixOf_iff_prefix] at hpre ⊢
    exact hpre.trans (List.prefix_append _ _)
  · rw [← List.append_assoc] at hpre
    have hple : p ≤ (m ++ secOpen).length := by simp; omega
    rw [List.drop_append_of_le_length hple] at hpre
    rwa [prefixOf_append_left Z (by simp [List.length_drop, secOpen]; omega)] at hpre

lemma secsBlock_cons (sid : List Char) (s : List Char × List Char)
    (bs : List (List Char × List Char)) :
    secsBlock sid (s :: bs) =
      openTagOf sid ++ s.1 ++ closeSec ++ s.2 ++ secsBlock sid bs := by
  simp [secsBlock, List.append_assoc]

lemma secsBlockIns_cons (sid ts nc : List Char) (s : List Char × List Char)
    (bs : List (List Char × List Char)) :
    secsBlockIns sid ts nc (s :: bs) =
      openTagOf sid ++ s.1 ++ addition ts nc ++ closeSec ++ s.2 ++ secsBlockIns sid ts nc bs := by
  simp [secsBlockIns, List.append_assoc]

/-- The condition on one section: its body contains no early closing tag
(so its own closing tag is the nearest), and its trailing text starts no new
`<section` marker. -/
def GoodSec (s : List Char × List Char) : Prop :=
  (∀ p < s.1.length, ¬ closeSec.isPrefixOf ((s.1 ++ closeSec).drop p) = true) ∧
  (∀ p < s.2.length, ¬ secOpen.isPrefixOf ((s.2 ++ secOpen).drop p) = true)

/-- Scanning a run of well-formed same-anchor sections: every section is
matched once, every one receives the addition, and the count is the number
of sections. -/
lemma scanSecs {sid ts nc : List Char} :
    ∀ (bs : List (List Char × List Char)), (∀ s ∈ bs, GoodSec s) →
      ∀ f, (secsBlock sid bs).length ≤ f →
        scanSub (secM sid ts nc) f (secsBlock sid bs) =
          (secsBlockIns sid ts nc bs, bs.length) := by
  intro bs
  induction bs with
  | nil =>
    intro _ f _
    cases f <;> simp [secsBlock, secsBlockIns, scanSub]
  | cons s rest ih =>
    intro h f hf
    obtain ⟨b, mid⟩ := s
    have hb := (h _ (List.mem_cons_self _ _)).1
    have hmid := (h _ (List.mem_cons_self _ _)).2
    dsimp only at hb hmid
    rw [secsBlock_cons] at hf ⊢
    have hmatch := @secM_at_section sid ts nc b
      (mid ++ secsBlock sid rest) hb
    have hstep := scanSub_match (f := f) matcherOK_secM hmatch
      (by simp only [List.length_append] at hf ⊢; omega)
    have hshape : openTagOf sid ++ b ++ closeSec ++ mid ++ secsBlock sid rest
        = openTagOf sid ++ b ++ closeSec ++ (mid ++ secsBlock sid rest) := by
      simp [List.append_assoc]
    rw [hshape, hstep]
    have hnomatch : ∀ p < mid.length,
        secM sid ts nc ((mid ++ secsBlock sid rest).drop p) = none := by
      refine secM_none_in_mid (secsBlock sid rest) hmid ?_
      cases rest with
      | nil => left; simp [secsBlock]
      | cons s' rest' =>
        right
        refine ⟨" id=\"".toList ++ sid ++ "\" class=\"section\">".toList ++
          (s'.1 ++ (closeSec ++ (s'.2 ++ secsBlock sid rest'))), ?_⟩
        rw [secsBlock_cons, openTagOf_secOpen]
        simp [List.append_assoc]
    have hcopy := scanSub_copy matcherOK_secM mid (secsBlock sid rest)
      (mid ++ secsBlock sid rest).length hnomatch (by simp)
    rw [hcopy]
    have hrec := ih (fun s hs => h s (List.mem_cons_of_mem _ hs))
      (secsBlock sid rest).length le_rfl
    rw [hrec]
    rw [secsBlockIns_cons]
    simp [List.append_assoc]

end SmartLearn

namespace SmartLearn

/-! ## Straddling occurrences and occurrence counting -/

/-- If an occurrence of `pat` starts in `u` and reaches past its end into a
context starting with `b0`, then `pat` itself contains `b0` (at offset
`u.length`). -/
lemma straddle_char {pat u : List Char} {b0 : Char} {X : List Char}
    (hlt : u.length < pat.length)
    (hpre : pat.isPrefixOf (u ++ b0 :: X) = true) :
    ∃ hk : u.length < pat.length, pat[u.length] = b0 := by
  rw [List.isPrefixOf_iff_prefix] at hpre
  obtain ⟨s, hs⟩ := hpre
  refine ⟨hlt, ?_⟩
  have h1 : (u ++ b0 :: X)[u.length]? = some b0 := by
    rw [List.getElem?_append_right le_rfl]
    simp
  rw [← hs, List.getElem?_append_left hlt, List.getElem?_eq_getElem hlt] at h1
  simpa using h1

/-- If no suffix of `a` is compatible with `pat` (neither a prefix of it nor
an extension of it), then no occurrence of `pat` starts inside `a`, whatever
follows `a`.  The hypothesis is decidable, which lets concrete segments be
handled by `decide`. -/
lemma noOcc_of_incompat {pat a : List Char} (X : List Char)
    (h : ∀ p < a.length, (a.drop p).isPrefixOf pat = false ∧
      pat.isPrefixOf (a.drop p) = false) :
    ∀ p < a.length, ¬ pat.isPrefixOf ((a ++ X).drop p) = true := by
  intro p hp hpre
  rw [List.drop_append_of_le_length (le_of_lt hp)] at hpre
  rcases le_or_lt pat.length (a.drop p).length with hle | hlt
  · rw [prefixOf_append_left _ hle] at hpre
    have := (h p hp).2
    simp [hpre] at this
  · rw [List.isPrefixOf_iff_prefix] at hpre
    obtain ⟨s, hs⟩ := hpre
    have hpref : (a.drop p).isPrefixOf pat = true := by
      rw [List.isPrefixOf_iff_prefix, List.prefix_iff_eq_take]
      have hc := congrArg (List.take (a.drop p).length) hs
      rw [List.take_append_of_le_length (le_of_lt hlt)] at hc
      rw [List.take_left] at hc
      exact hc.symm
    have := (h p hp).1
    simp [hpref] at this

/-- Switch the context of a no-occurrence hypothesis when the new context
starts with a character the pattern avoids: occurrences wholly inside `a`
are independent of the context, and straddling ones would need that
character inside `pat`. -/
lemma noOcc_change_ctx {pat a t : List Char} (_hlen : pat.length ≤ t.length)
    (h : ∀ p < a.length, ¬ pat.isPrefixOf ((a ++ t).drop p) = true)
    {c0 : Char} (hc0 : ∀ c ∈ pat, c ≠ c0) (X : List Char) :
    ∀ p < a.length, ¬ pat.isPrefixOf ((a ++ (c0 :: X)).drop p) = true := by
  intro p hp hpre
  rw [List.drop_append_of_le_length (le_of_lt hp)] at hpre
  rcases le_or_lt pat.length (a.drop p).length with hle | hlt
  · rw [prefixOf_append_left _ hle] at hpre
    apply h p hp
    rw [List.drop_append_of_le_length (le_of_lt hp),
      prefixOf_append_left _ (by simpa using hle)]
    exact hpre
  · obtain ⟨hk, hch⟩ := straddle_char hlt hpre
    exact hc0 _ (List.getElem_mem hk) hch

lemma occCount_nil {pat : List Char} : occCount pat [] = 0 := rfl

lemma occCount_append_zero {pat : List Char} :
    ∀ (a b : List Char),
      (∀ p < a.length, ¬ pat.isPrefixOf ((a ++ b).drop p) = true) →
      occCount pat (a ++ b) = occCount pat b := by
  intro a
  induction a with
  | nil => simp
  | cons c a' ih =>
    intro b h
    have h0 := h 0 (by simp)
    simp only [List.drop_zero, List.cons_append] at h0
    rw [List.cons_append, occCount, if_neg h0]
    have := ih b (fun p hp => by
      have := h (p + 1) (by simp; omega)
      simpa using this)
    simp [this]

lemma occCount_append_one {pat : List Char} (a b : List Char)
    (h0 : pat.isPrefixOf (a ++ b) = true)
    (hne : a ≠ [])
    (h : ∀ p, 1 ≤ p → p < a.length → ¬ pat.isPrefixOf ((a ++ b).drop p) = true) :
    occCount pat (a ++ b) = 1 + occCount pat b := by
  cases a with
  | nil => exact absurd rfl hne
  | cons c a' =>
    rw [List.cons_append] at h0 ⊢
    rw [occCount, if_pos h0]
    congr 1
    exact occCount_append_zero a' b (fun p hp => by
      have := h (p + 1) (by omega) (by simp; omega)
      simpa using this)

lemma occCount_zero_of_noOcc {pat l : List Char}
    (h : ∀ p < l.length, ¬ pat.isPrefixOf (l.drop p) = true) :
    occCount pat l = 0 := by
  have := occCount_append_zero l [] (by simpa using h)
  simpa [occCount_nil] using this

end SmartLearn

namespace SmartLearn

instance (s : List Char × List Char) : Decidable (GoodSec s) := by
  unfold GoodSec
  exact instDecidableAnd

/-- Occurrences of `secOpen` starting in the text before a section are
unaffected by what the section is followed by. -/
lemma noOcc_pre_before_secOpen {pre : List Char} (Z : List Char)
    (hpre : ∀ p < pre.length, ¬ secOpen.isPrefixOf ((pre ++ secOpen).drop p) = true) :
    ∀ p < pre.length, ¬ secOpen.isPrefixOf ((pre ++ (secOpen ++ Z)).drop p) = true := by
  intro p hp hp2
  apply @noOcc_extend secOpen pre secOpen Z le_rfl hpre p hp
  rw [← List.append_assoc] at hp2
  exact hp2

/-- `<section` does not overlap itself: a marker-free final segment stays
marker-free when `<section` is appended as context. -/
lemma secOpen_ctx_of_free {post : List Char}
    (hpost : ∀ p < post.length, ¬ secOpen.isPrefixOf (post.drop p) = true) :
    ∀ p < post.length, ¬ secOpen.isPrefixOf ((post ++ secOpen).drop p) = true := by
  intro p hp hpre
  rw [List.drop_append_of_le_length (le_of_lt hp)] at hpre
  rcases le_or_lt secOpen.length (post.drop p).length with hle | hlt
  · rw [prefixOf_append_left _ hle] at hpre
    exact hpost p hp hpre
  · nth_rewrite 2 [show secOpen = '<' :: "section".toList by decide] at hpre
    obtain ⟨hk, hch⟩ := straddle_char hlt hpre
    have hge : 1 ≤ (post.drop p).length := by
      simp only [List.length_drop]
      omega
    have hno : ∀ k < secOpen.length, 1 ≤ k → secOpen.getD k ' ' ≠ '<' := by decide
    have := hno (post.drop p).length hk hge
    rw [List.getD_eq_getElem secOpen ' ' hk] at this
    exact this hch

/-- Shared core for claims about `add_content_to_section` on a document that
is a prefix followed by a run of same-anchor sections. -/
lemma add_content_on_secsBlock (sid ts nc pre : List Char)
    (bs : List (List Char × List Char))
    (hne : bs ≠ [])
    (hpre : ∀ p < pre.length, ¬ secOpen.isPrefixOf ((pre ++ secOpen).drop p) = true)
    (hbs : ∀ s ∈ bs, GoodSec s) :
    add_content_to_section sid nc ts (pre ++ secsBlock sid bs)
      = (pre ++ secsBlockIns sid ts nc bs, true) := by
  simp only [add_content_to_section]
  have hsec : ∃ Z, secsBlock sid bs = secOpen ++ Z := by
    cases bs with
    | nil => exact absurd rfl hne
    | cons s0 rest0 =>
      refine ⟨" id=\"".toList ++ sid ++ "\" class=\"section\">".toList ++
        (s0.1 ++ (closeSec ++ (s0.2 ++ secsBlock sid rest0))), ?_⟩
      rw [secsBlock_cons, openTagOf_secOpen]
      simp [List.append_assoc]
  obtain ⟨Z, hZ⟩ := hsec
  have hnopre : ∀ p < pre.length,
      secM sid ts nc ((pre ++ secsBlock sid bs).drop p) = none := by
    intro p hp
    apply secM_none_of_not_secOpen
    intro hp2
    apply noOcc_pre_before_secOpen Z hpre p hp
    rwa [hZ] at hp2
  have hcopy := scanSub_copy matcherOK_secM pre (secsBlock sid bs)
    (pre ++ secsBlock sid bs).length hnopre (by simp)
  rw [hcopy, scanSecs bs hbs (secsBlock sid bs).length le_rfl]
  have : 0 < bs.length := by
    cases bs with
    | nil => exact absurd rfl hne
    | cons _ _ => simp
  simp [this]

/-! ## Claims C3 and C9: `add_content_to_section` -/

/-- C3.  If no position of the document starts the opening marker
`<section id="<anchor>"`, the `re.subn` of `add_content_to_section` finds
no match, so the document is returned unchanged with a false success flag:
no partial mutation is possible. -/
theorem append_missing_anchor_unchanged (sid nc ts doc : List Char)
    (h : ∀ p < doc.length, ¬ (openPre sid).isPrefixOf (doc.drop p) = true) :
    add_content_to_section sid nc ts doc = (doc, false) := by
  simp only [add_content_to_section]
  have hnone := scanSub_none (M := secM sid ts nc) matcherOK_secM doc doc.length
    (fun p hp => @secM_none_of_not_openPre sid ts nc _ (h p hp)) le_rfl
  rw [hnone]
  simp

/-- Witness for C3 at a concrete document with no `docker` section. -/
theorem append_missing_anchor_unchanged_witness :
    add_content_to_section "docker".toList "<p>x</p>".toList
      "2024-01-01 00:00".toList "hello world".toList
      = ("hello world".toList, false) :=
  append_missing_anchor_unchanged "docker".toList "<p>x</p>".toList
    "2024-01-01 00:00".toList "hello world".toList (by decide)

/-- C9.  On a document holding a run of two or more sections carrying the
same anchor id, `re.subn` replaces every match, so the timestamped fragment
is inserted before the closing tag of every such section and the call still
reports success. -/
theorem append_duplicate_anchor_hits_all (sid ts nc pre : List Char)
    (bs : List (List Char × List Char))
    (hlen : 2 ≤ bs.length)
    (hpre : ∀ p < pre.length, ¬ secOpen.isPrefixOf ((pre ++ secOpen).drop p) = true)
    (hbs : ∀ s ∈ bs, GoodSec s) :
    add_content_to_section sid nc ts (pre ++ secsBlock sid bs)
      = (pre ++ secsBlockIns sid ts nc bs, true) :=
  add_content_on_secsBlock sid ts nc pre bs
    (by intro hc; subst hc; simp at hlen) hpre hbs

/-- Witness for C9 at a concrete document with two `docker` sections. -/
theorem append_duplicate_anchor_hits_all_witness :
    add_content_to_section "docker".toList "<p>tip</p>".toList "2024".toList
      ("<html>".toList ++ secsBlock "docker".toList
        [("<p>a</p>".toList, "\n".toList), ("<p>b</p>".toList, "</main>".toList)])
      = ("<html>".toList ++ secsBlockIns "docker".toList "2024".toList "<p>tip</p>".toList
        [("<p>a</p>".toList, "\n".toList), ("<p>b</p>".toList, "</main>".toList)], true) :=
  append_duplicate_anchor_hits_all "docker".toList "2024".toList "<p>tip</p>".toList
    "<html>".toList
    [("<p>a</p>".toList, "\n".toList), ("<p>b</p>".toList, "</main>".toList)]
    (by decide) (by decide) (by decide)

end SmartLearn


namespace SmartLearn

/-! ## Claim C5: appending to the single `docker` section -/

/-- Occurrences in a two-segment block split into occurrences starting in
either segment. -/
lemma noOcc_parts {pat a b X : List Char}
    (ha : ∀ p < a.length, ¬ pat.isPrefixOf ((a ++ (b ++ X)).drop p) = true)
    (hb : ∀ p < b.length, ¬ pat.isPrefixOf ((b ++ X).drop p) = true) :
    ∀ p < (a ++ b).length, ¬ pat.isPrefixOf (((a ++ b) ++ X).drop p) = true := by
  intro p hp
  rw [List.append_assoc]
  rcases lt_or_ge p a.length with h1 | h1
  · exact ha p h1
  · intro hpre
    have hdrop : (a ++ (b ++ X)).drop p = (b ++ X).drop (p - a.length) := by
      conv_lhs => rw [show p = a.length + (p - a.length) by omega,
        ← List.drop_drop, List.drop_left]
    rw [hdrop] at hpre
    exact hb (p - a.length) (by simp at hp; omega) hpre

/-- No `<section` marker starts inside the timestamp, whatever follows, as
long as the timestamp has no `<`. -/
lemma noOcc_secOpen_ts {ts : List Char} (hts : ∀ c ∈ ts, c ≠ '<') (Y : List Char) :
    ∀ p < ts.length, ¬ secOpen.isPrefixOf ((ts ++ Y).drop p) = true := by
  intro p hp hpre
  rw [show secOpen = '<' :: "section".toList by decide] at hpre
  exact @noOcc_of_all_ne '<' "section".toList ts hts Y p hp hpre

/-- No `<section` marker starts inside the spliced addition (its pieces all
mismatch `<section` within themselves, and the timestamp has no `<`). -/
lemma noOcc_secOpen_addition {ts : List Char} (hts : ∀ c ∈ ts, c ≠ '<')
    (X : List Char) :
    ∀ p < (addition ts "<p>new tip</p>".toList).length,
      ¬ secOpen.isPrefixOf ((addition ts "<p>new tip</p>".toList ++ X).drop p) = true := by
  rw [addition]
  apply noOcc_parts
  · apply noOcc_parts
    · apply noOcc_parts
      · apply noOcc_parts
        · exact noOcc_of_incompat _ (by decide)
        · exact noOcc_secOpen_ts hts _
      · exact noOcc_of_incompat _ (by decide)
    · exact noOcc_of_incompat _ (by decide)
  · exact noOcc_of_incompat _ (by decide)

/-- C5.  On a document with exactly one top-level section marker, carrying
anchor id `docker`, `add_content_to_section` succeeds; the fragment
`<p>new tip</p>` lands (inside the timestamped addition) strictly between
the section's opening tag and its nearest following closing tag; everything
outside that edited region is byte-for-byte unchanged (visible in the
returned document's decomposition); and the count of `<section` markers is
still exactly 1, before and after. -/
theorem append_docker_single_section (pre body post ts : List Char)
    (hpre : ∀ p < pre.length, ¬ secOpen.isPrefixOf ((pre ++ secOpen).drop p) = true)
    (hbodyC : ∀ p < body.length, ¬ closeSec.isPrefixOf ((body ++ closeSec).drop p) = true)
    (hbodyO : ∀ p < body.length, ¬ secOpen.isPrefixOf ((body ++ closeSec).drop p) = true)
    (hpost : ∀ p < post.length, ¬ secOpen.isPrefixOf (post.drop p) = true)
    (hts : ∀ c ∈ ts, c ≠ '<') :
    add_content_to_section "docker".toList "<p>new tip</p>".toList ts
        (pre ++ openTagOf "docker".toList ++ body ++ closeSec ++ post)
      = (pre ++ openTagOf "docker".toList ++ body ++
          addition ts "<p>new tip</p>".toList ++ closeSec ++ post, true)
    ∧ occCount secOpen
        (pre ++ openTagOf "docker".toList ++ body ++ closeSec ++ post) = 1
    ∧ occCount secOpen
        (pre ++ openTagOf "docker".toList ++ body ++
          addition ts "<p>new tip</p>".toList ++ closeSec ++ post) = 1 := by
  have hGood : ∀ s ∈ [(body, post)], GoodSec s := by
    intro s hs
    simp only [List.mem_singleton] at hs
    subst hs
    exact ⟨hbodyC, secOpen_ctx_of_free hpost⟩
  have h1 := add_content_on_secsBlock "docker".toList ts "<p>new tip</p>".toList pre
    [(body, post)] (by simp) hpre hGood
  have hblock : secsBlock "docker".toList [(body, post)]
      = openTagOf "docker".toList ++ (body ++ (closeSec ++ post)) := by
    simp [secsBlock, List.append_assoc]
  have hblockIns : secsBlockIns "docker".toList ts "<p>new tip</p>".toList [(body, post)]
      = openTagOf "docker".toList ++
        (body ++ (addition ts "<p>new tip</p>".toList ++ (closeSec ++ post))) := by
    simp [secsBlockIns, List.append_assoc]
  rw [hblock, hblockIns] at h1
  -- the no-occurrence facts for each zone
  have hpostZ : occCount secOpen post = 0 := occCount_zero_of_noOcc hpost
  have hclose : ∀ (X : List Char), ∀ p < closeSec.length,
      ¬ secOpen.isPrefixOf ((closeSec ++ X).drop p) = true :=
    fun X => noOcc_of_incompat X (by decide)
  have hbodyD : ∀ p < body.length,
      ¬ secOpen.isPrefixOf ((body ++ (closeSec ++ post)).drop p) = true := by
    intro p hp
    have := @noOcc_extend secOpen body closeSec post
      (by decide) hbodyO p hp
    simpa [List.append_assoc] using this
  have hbodyD' : ∀ p < body.length,
      ¬ secOpen.isPrefixOf ((body ++
        (addition ts "<p>new tip</p>".toList ++ (closeSec ++ post))).drop p) = true := by
    have hcons : addition ts "<p>new tip</p>".toList ++ (closeSec ++ post)
        = '\n' :: ("                <!-- Added on ".toList ++ ts ++ " -->\n".toList ++
            "<p>new tip</p>".toList ++ "\n                ".toList ++ (closeSec ++ post)) := by
      rw [addition, show "\n                <!-- Added on ".toList
        = '\n' :: "                <!-- Added on ".toList by decide]
      simp [List.append_assoc]
    rw [hcons]
    exact noOcc_change_ctx (t := closeSec) (by decide) hbodyO
      (by decide : ∀ c ∈ secOpen, c ≠ '\n') _
  -- the opening tag: a marker at its head, none in its interior
  have htag0 : ∀ (R : List Char),
      secOpen.isPrefixOf (openTagOf "docker".toList ++ R) = true := by
    intro R
    rw [List.isPrefixOf_iff_prefix, openTagOf_secOpen, List.append_assoc]
    exact List.prefix_append _ _
  have htagInt : ∀ (R : List Char), ∀ p, 1 ≤ p → p < (openTagOf "docker".toList).length →
      ¬ secOpen.isPrefixOf ((openTagOf "docker".toList ++ R).drop p) = true := by
    intro R p hp1 hplt hpre2
    rw [show openTagOf "docker".toList
      = '<' :: "section id=\"docker\" class=\"section\">".toList by decide,
      List.cons_append, show p = (p - 1) + 1 by omega, List.drop_succ_cons] at hpre2
    have hplt' : p - 1 < "section id=\"docker\" class=\"section\">".toList.length := by
      rw [show openTagOf "docker".toList
        = '<' :: "section id=\"docker\" class=\"section\">".toList by decide] at hplt
      simp only [List.length_cons] at hplt
      omega
    exact noOcc_of_incompat R (by decide) (p - 1) hplt' hpre2
  have htagZ : ∀ (R : List Char),
      occCount secOpen (openTagOf "docker".toList ++ R) = 1 + occCount secOpen R :=
    fun R => occCount_append_one _ R (htag0 R) (by decide) (htagInt R)
  have hpreZ : ∀ (R Z : List Char), openTagOf "docker".toList ++ R = secOpen ++ Z →
      occCount secOpen (pre ++ (openTagOf "docker".toList ++ R))
        = occCount secOpen (openTagOf "docker".toList ++ R) := by
    intro R Z hRZ
    apply occCount_append_zero
    intro p hp
    rw [hRZ]
    exact noOcc_pre_before_secOpen Z hpre p hp
  have hZeq : ∀ (R : List Char), openTagOf "docker".toList ++ R
      = secOpen ++ (" id=\"".toList ++ "docker".toList ++
          "\" class=\"section\">".toList ++ R) := by
    intro R
    rw [openTagOf_secOpen]
    simp [List.append_assoc]
  -- count in the original document
  have hcnt1 : occCount secOpen
      (pre ++ (openTagOf "docker".toList ++ (body ++ (closeSec ++ post)))) = 1 := by
    rw [hpreZ _ _ (hZeq _), htagZ, occCount_append_zero body _ hbodyD,
      occCount_append_zero closeSec post (hclose post), hpostZ]
  -- count in the edited document
  have hcnt2 : occCount secOpen
      (pre ++ (openTagOf "docker".toList ++
        (body ++ (addition ts "<p>new tip</p>".toList ++ (closeSec ++ post))))) = 1 := by
    rw [hpreZ _ _ (hZeq _), htagZ, occCount_append_zero body _ hbodyD',
      occCount_append_zero _ _ (noOcc_secOpen_addition hts _),
      occCount_append_zero closeSec post (hclose post), hpostZ]
  refine ⟨?_, ?_, ?_⟩
  · simpa [List.append_assoc] using h1
  · simpa [List.append_assoc] using hcnt1
  · simpa [List.append_assoc] using hcnt2

/-- Witness for C5 at a concrete one-section document. -/
theorem append_docker_single_section_witness :
    (add_content_to_section "docker".toList "<p>new tip</p>".toList
        "2024-01-01 00:00".toList
        ("<html><main>".toList ++ openTagOf "docker".toList ++ "<p>old</p>".toList ++
          closeSec ++ "</main></html>".toList)).2 = true :=
  congrArg Prod.snd
    (append_docker_single_section "<html><main>".toList "<p>old</p>".toList
      "</main></html>".toList "2024-01-01 00:00".toList
      (by decide) (by decide) (by decide) (by decide) (by decide)).1

end SmartLearn

namespace SmartLearn

/-! ## Claim C7: `find_section_in_file` -/

/-- C7 (amended).  `find_section_in_file` returns true exactly when the bare
substring `id="<anchor>"` occurs somewhere in the document — in any tag, not
only in a section-opening marker. -/
theorem section_lookup_iff_id_attr (doc sid : List Char) :
    find_section_in_file doc sid = true ↔ Occurs (idPat sid) doc := by
  rw [find_section_in_file]
  exact hasSub_iff_occurs (by simp [idPat])

/-- Counterexample to C7 as stated: a document whose only `id="docker"` sits
on a `<div>` makes `find_section_in_file` report true although no
section-opening marker `<section id="docker"` occurs anywhere. -/
theorem section_lookup_iff_id_attr_cex :
    find_section_in_file "<div id=\"docker\">x</div>".toList "docker".toList = true ∧
    ¬ Occurs (openPre "docker".toList) "<div id=\"docker\">x</div>".toList := by
  constructor
  · decide
  · intro h
    have := splitFirst_isSome_of_occurs (by decide) h
    revert this
    decide

/-! ## `str.replace` with a unique occurrence -/

lemma litM_none {pat rep w : List Char} (h : ¬ pat.isPrefixOf w = true) :
    litM pat rep w = none := by
  rw [litM, if_neg h]

lemma litM_at (pat rep v : List Char) :
    litM pat rep (pat ++ v) = some (pat, rep, v) := by
  rw [litM, if_pos]
  · simp [List.drop_left]
  · rw [List.isPrefixOf_iff_prefix]
    exact List.prefix_append _ _

/-- `str.replace` when the pattern occurs exactly once: nothing before or
after the occurrence is touched. -/
lemma pyReplace_unique (pat rep u v : List Char) (hpne : pat ≠ [])
    (hu : ∀ p < u.length, ∀ X : List Char, ¬ pat.isPrefixOf ((u.drop p) ++ X) = true)
    (hv : ∀ p < v.length, ¬ pat.isPrefixOf (v.drop p) = true) :
    pyReplace pat rep (u ++ (pat ++ v)) = u ++ (rep ++ v) := by
  rw [pyReplace]
  have hMok := @matcherOK_litM pat rep hpne
  have hnou : ∀ p < u.length, litM pat rep ((u ++ (pat ++ v)).drop p) = none := by
    intro p hp
    apply litM_none
    rw [List.drop_append_of_le_length (le_of_lt hp)]
    exact hu p hp (pat ++ v)
  have hcopy := scanSub_copy hMok u (pat ++ v) (u ++ (pat ++ v)).length hnou (by simp)
  rw [hcopy]
  have hstep := scanSub_match hMok (litM_at pat rep v)
    (le_rfl : (pat ++ v).length ≤ (pat ++ v).length)
  rw [hstep]
  have hvz := scanSub_none hMok v v.length
    (fun p hp => litM_none (hv p hp)) le_rfl
  rw [hvz]

/-- Turn the decidable incompatibility check into the `∀ X` form used by the
uniqueness hypotheses. -/
lemma cleanFor_of_incompat {pat a : List Char}
    (h : ∀ p < a.length, (a.drop p).isPrefixOf pat = false ∧
      pat.isPrefixOf (a.drop p) = false) :
    ∀ p < a.length, ∀ X : List Char, ¬ pat.isPrefixOf ((a.drop p) ++ X) = true := by
  intro p hp X hpre
  apply noOcc_of_incompat (a := a) X h p hp
  rw [List.drop_append_of_le_length (le_of_lt hp)]
  exact hpre

lemma cleanFor_append {pat a b : List Char}
    (ha : ∀ p < a.length, ∀ X : List Char, ¬ pat.isPrefixOf ((a.drop p) ++ X) = true)
    (hb : ∀ p < b.length, ∀ X : List Char, ¬ pat.isPrefixOf ((b.drop p) ++ X) = true) :
    ∀ p < (a ++ b).length, ∀ X : List Char,
      ¬ pat.isPrefixOf (((a ++ b).drop p) ++ X) = true := by
  intro p hp X
  rcases lt_or_ge p a.length with h1 | h1
  · rw [List.drop_append_of_le_length (le_of_lt h1), List.append_assoc]
    exact ha p h1 (b ++ X)
  · have hdrop : (a ++ b).drop p = b.drop (p - a.length) := by
      conv_lhs => rw [show p = a.length + (p - a.length) by omega,
        ← List.drop_drop, List.drop_left]
    rw [hdrop]
    exact hb (p - a.length) (by simp at hp; omega) X

lemma hasSub_false_of_noOcc {pat l : List Char} (hpne : pat ≠ [])
    (h : ∀ p < l.length, ¬ pat.isPrefixOf (l.drop p) = true) :
    hasSub pat l = false := by
  cases hh : hasSub pat l
  · rfl
  · exfalso
    rw [hasSub_iff_occurs hpne, occurs_iff] at hh
    obtain ⟨p, hp, hpre⟩ := hh
    rcases lt_or_ge p l.length with h1 | h1
    · exact h p h1 hpre
    · rw [List.drop_eq_nil_of_le h1] at hpre
      cases pat with
      | nil => exact hpne rfl
      | cons c cs => simp [List.isPrefixOf] at hpre

/-! ## Claim C10: `update_topic_file` -/

/-- C10.  When the document contains the insertion marker
`<!-- CONTENT_MARKER -->` exactly once, `update_topic_file` inserts the
generated HTML immediately before the marker and keeps the marker, so a
second invocation appends at the same point; when the marker is absent, the
content is inserted before `</main>` instead. -/
theorem update_topic_marker_stable (u v c1 c2 : List Char)
    (hu : ∀ p < u.length, ∀ X : List Char,
      ¬ contentMarker.isPrefixOf ((u.drop p) ++ X) = true)
    (hc1 : ∀ p < (c1 ++ pad8).length, ∀ X : List Char,
      ¬ contentMarker.isPrefixOf (((c1 ++ pad8).drop p) ++ X) = true)
    (hv : ∀ p < v.length, ¬ contentMarker.isPrefixOf (v.drop p) = true) :
    update_topic_file c1 (u ++ (contentMarker ++ v))
      = u ++ (c1 ++ (pad8 ++ (contentMarker ++ v)))
    ∧ update_topic_file c2 (u ++ (c1 ++ (pad8 ++ (contentMarker ++ v))))
      = u ++ (c1 ++ (pad8 ++ (c2 ++ (pad8 ++ (contentMarker ++ v)))))
    ∧ ∀ w z c : List Char,
        (∀ p < (w ++ (mainClose ++ z)).length,
          ¬ contentMarker.isPrefixOf ((w ++ (mainClose ++ z)).drop p) = true) →
        (∀ p < w.length, ∀ X : List Char,
          ¬ mainClose.isPrefixOf ((w.drop p) ++ X) = true) →
        (∀ p < z.length, ¬ mainClose.isPrefixOf (z.drop p) = true) →
        update_topic_file c (w ++ (mainClose ++ z))
          = w ++ (c ++ (pad8 ++ (mainClose ++ z))) := by
  have hmne : contentMarker ≠ [] := by decide
  refine ⟨?_, ?_, ?_⟩
  · rw [update_topic_file]
    rw [if_pos ((hasSub_iff_occurs hmne).mpr ⟨u, v, by simp⟩)]
    have := pyReplace_unique contentMarker
      (c1 ++ ("\n        ".toList ++ contentMarker)) u v hmne hu hv
    simpa [pad8, List.append_assoc] using this
  · rw [update_topic_file]
    rw [if_pos ((hasSub_iff_occurs hmne).mpr
      ⟨u ++ (c1 ++ pad8), v, by simp [List.append_assoc]⟩)]
    have hu' := cleanFor_append hu hc1
    have := pyReplace_unique contentMarker
      (c2 ++ ("\n        ".toList ++ contentMarker)) (u ++ (c1 ++ pad8)) v hmne hu' hv
    simpa [pad8, List.append_assoc] using this
  · intro w z c hno hw hz
    rw [update_topic_file]
    rw [if_neg (by simp [hasSub_false_of_noOcc hmne hno])]
    have := pyReplace_unique mainClose (c ++ "\n        </main>".toList) w z
      (by decide) hw hz
    have hsplit : ("\n        </main>".toList : List Char) = pad8 ++ mainClose := by decide
    rw [hsplit] at this
    simpa [List.append_assoc] using this

/-- Witness for C10: concrete topic file, one marker, one update. -/
theorem update_topic_marker_stable_witness :
    update_topic_file "<p>tip</p>".toList
        ("<main>".toList ++ (contentMarker ++ "\n</main>".toList))
      = "<main>".toList ++ ("<p>tip</p>".toList ++ (pad8 ++
          (contentMarker ++ "\n</main>".toList))) :=
  (update_topic_marker_stable "<main>".toList "\n</main>".toList
    "<p>tip</p>".toList "<p>more</p>".toList
    (cleanFor_of_incompat (by decide)) (cleanFor_of_incompat (by decide))
    (by decide)).1

end SmartLearn

namespace SmartLearn

/-! ## Claim C6: `create_new_section` then `find_section_in_file` -/

lemma tocM_none_of_not_ul {sid title w : List Char}
    (h : ¬ ulClose.isPrefixOf w = true) : tocM sid title w = none := by
  rw [tocM, if_neg h]

lemma isWS_ne_lt {c : Char} (h : isWS c = true) : c ≠ '<' := by
  intro hc
  subst hc
  simp [isWS] at h

/-- No occurrence of `</main>` starts inside a `</ul>…</nav>` match. -/
lemma no_main_in_tocmatch (ws r : List Char) (hws : ∀ c ∈ ws, isWS c = true) :
    ∀ p < (ulClose ++ (ws ++ navClose)).length,
      ¬ mainClose.isPrefixOf (((ulClose ++ (ws ++ navClose)) ++ r).drop p) = true := by
  apply noOcc_parts
  · exact noOcc_of_incompat _ (by decide)
  · apply noOcc_parts
    · intro p hp hpre
      rw [show mainClose = '<' :: "/main>".toList by decide] at hpre
      exact @noOcc_of_all_ne '<' "/main>".toList ws
        (fun c hc => isWS_ne_lt (hws c hc)) _ p hp hpre
    · exact noOcc_of_incompat _ (by decide)

/-- The ToC substitution of `create_new_section` preserves any occurrence of
`</main>`: a `</ul>…</nav>` match cannot overlap `</main>`, and the scanner
copies everything else verbatim. -/
lemma tocScan_preserves_main (sid title : List Char) :
    ∀ (f : Nat) (w : List Char), w.length ≤ f → Occurs mainClose w →
      Occurs mainClose (scanSub (tocM sid title) f w).1 := by
  intro f
  induction f with
  | zero =>
    intro w hf hocc
    have hw : w = [] := List.eq_nil_of_length_eq_zero (by omega)
    subst hw
    exact absurd hocc (not_occurs_nil (by decide))
  | succ f ih =>
    intro w hf hocc
    cases w with
    | nil => exact absurd hocc (not_occurs_nil (by decide))
    | cons c cs =>
      cases hm : tocM sid title (c :: cs) with
      | some x =>
        obtain ⟨m, rep, r⟩ := x
        obtain ⟨hw, ws, hws, hmm, -⟩ := tocM_shape hm
        rw [scanSub_cons_some hm]
        apply occurs_append_right
        have hoccr : Occurs mainClose r := by
          apply occurs_of_append (a := m) (b := r)
          · rwa [hw] at hocc
          · intro p hp
            rw [hmm] at hp ⊢
            have := no_main_in_tocmatch ws r hws p (by simpa [List.append_assoc] using hp)
            simpa [List.append_assoc] using this
        have hrlen : r.length ≤ f := by
          have hlw := congrArg List.length hw
          simp only [List.length_cons, List.length_append] at hlw
          have hm1 : 1 ≤ m.length := by
            rw [hmm]
            simp [ulClose]
          simp only [List.length_cons] at hf
          omega
        exact ih r hrlen hoccr
      | none =>
        rw [scanSub_cons_none hm]
        rw [occurs_iff] at hocc
        obtain ⟨p, hp, hpre⟩ := hocc
        cases p with
        | zero =>
          simp only [List.drop_zero] at hpre
          rw [List.isPrefixOf_iff_prefix] at hpre
          obtain ⟨v, hv⟩ := hpre
          rw [show mainClose = '<' :: "/main>".toList by decide] at hv
          simp only [List.cons_append, List.cons.injEq] at hv
          obtain ⟨hc, hcs⟩ := hv
          have hnone6 : ∀ p < ("/main>".toList).length,
              tocM sid title (("/main>".toList ++ v).drop p) = none := by
            intro p hp2
            apply tocM_none_of_not_ul
            intro hpre2
            rw [show ulClose = '<' :: "/ul>".toList by decide] at hpre2
            exact @noOcc_of_all_ne '<' "/ul>".toList "/main>".toList
              (by decide) v p hp2 hpre2
          have hlencs : cs.length ≤ f := by
            simp only [List.length_cons] at hf
            omega
          have hfuel := scanSub_fuel (M := tocM sid title) matcherOK_tocM f cs
            ("/main>".toList ++ v).length hlencs (by rw [← hcs])
          have hcopy := scanSub_copy matcherOK_tocM "/main>".toList v
            ("/main>".toList ++ v).length hnone6 (by simp; omega)
          refine ⟨[], (scanSub (tocM sid title) v.length v).1, ?_⟩
          rw [hfuel]
          conv_lhs => rw [← hcs]
          rw [hcopy]
          rw [show mainClose = '<' :: "/main>".toList by decide, ← hc]
          simp
        | succ p' =>
          have hocc' : Occurs mainClose cs := by
            rw [occurs_iff]
            refine ⟨p', by simp at hp; omega, by simpa using hpre⟩
          obtain ⟨x, y, hxy⟩ := ih cs (by simp at hf; omega) hocc'
          exact ⟨c :: x, y, by simp [hxy]⟩

lemma litM_some_rep {pat rep w m rp r : List Char}
    (h : litM pat rep w = some (m, rp, r)) : rp = rep := by
  rw [litM] at h
  split at h
  · simp only [Option.some.injEq, Prod.mk.injEq] at h
    exact h.2.1.symm
  · simp at h

/-- If the pattern occurs, `str.replace` fires at least once, so the
replacement text occurs in the output. -/
lemma pyReplace_occurs_rep {pat rep : List Char} (hpne : pat ≠ []) :
    ∀ (f : Nat) (l : List Char), l.length ≤ f → Occurs pat l →
      Occurs rep (scanSub (litM pat rep) f l).1 := by
  intro f
  induction f with
  | zero =>
    intro l hf hocc
    have hl : l = [] := List.eq_nil_of_length_eq_zero (by omega)
    subst hl
    exact absurd hocc (not_occurs_nil hpne)
  | succ f ih =>
    intro l hf hocc
    cases l with
    | nil => exact absurd hocc (not_occurs_nil hpne)
    | cons c cs =>
      cases hm : litM pat rep (c :: cs) with
      | some x =>
        obtain ⟨m, rp, r⟩ := x
        rw [scanSub_cons_some hm]
        rw [litM_some_rep hm]
        exact ⟨[], (scanSub (litM pat rep) f r).1, by simp⟩
      | none =>
        rw [scanSub_cons_none hm]
        have hnp : ¬ pat.isPrefixOf (c :: cs) = true := by
          intro hpre
          rw [litM, if_pos hpre] at hm
          simp at hm
        obtain ⟨x, y, hxy⟩ := ih cs (by simp at hf; omega)
          (occurs_cons_of_not_head hocc hnp)
        exact ⟨c :: x, y, by simp [hxy]⟩

/-- The synthesized section block contains the `id="<sid>"` substring. -/
lemma idPat_in_newSection (sid title nc ts : List Char) (num : Nat) :
    Occurs (idPat sid) (newSection sid title nc ts num) := by
  rw [newSection, idPat]
  refine ⟨"\n            <!-- New Section Added on ".toList ++ ts ++
    " -->\n            <section ".toList,
    " class=\"section\">\n                <h2>".toList ++
      Nat.toDigits 10 num ++ ". ".toList ++ title ++
      "</h2>\n\n".toList ++ nc ++ "\n            </section>\n".toList, ?_⟩
  rw [show (" -->\n            <section id=\"".toList : List Char)
    = " -->\n            <section ".toList ++ "id=\"".toList by decide,
    show ("\" class=\"section\">\n                <h2>".toList : List Char)
    = '"' :: " class=\"section\">\n                <h2>".toList by decide]
  simp [List.append_assoc]

/-- C6.  On a well-formed document — one containing the `</ul>…</nav>` ToC
closing pair and the `</main>` content-closing marker — `create_new_section`
reports success and the resulting document makes `find_section_in_file` true
for the same anchor id. -/
theorem create_section_then_lookup (sid title nc ts doc : List Char)
    (hmain : Occurs mainClose doc)
    (_htoc : ∃ ws, (∀ c ∈ ws, isWS c = true) ∧
      Occurs (ulClose ++ (ws ++ navClose)) doc) :
    (create_new_section sid title nc ts doc).2 = true ∧
    find_section_in_file (create_new_section sid title nc ts doc).1 sid = true := by
  refine ⟨rfl, ?_⟩
  simp only [create_new_section]
  have h2 : Occurs mainClose (scanSub (tocM sid title) doc.length doc).1 :=
    tocScan_preserves_main sid title doc.length doc le_rfl hmain
  have h3 : Occurs
      (newSection sid title nc ts (section_count doc + 1) ++ "        </main>".toList)
      (pyReplace mainClose
        (newSection sid title nc ts (section_count doc + 1) ++ "        </main>".toList)
        (scanSub (tocM sid title) doc.length doc).1) := by
    rw [pyReplace]
    exact pyReplace_occurs_rep (by decide) _ _ le_rfl h2
  have h4 : Occurs (idPat sid)
      (newSection sid title nc ts (section_count doc + 1) ++ "        </main>".toList) :=
    occurs_append_left _ (idPat_in_newSection sid title nc ts _)
  rw [find_section_in_file]
  exact (hasSub_iff_occurs (by simp [idPat])).mpr (occurs_trans h4 h3)

/-- Witness for C6 on a concrete well-formed empty document shell. -/
theorem create_section_then_lookup_witness :
    find_section_in_file
      (create_new_section "linux".toList "Linux".toList "<p>x</p>".toList
        "2024".toList "<nav><ul></ul></nav><main></main>".toList).1
      "linux".toList = true :=
  (create_section_then_lookup "linux".toList "Linux".toList "<p>x</p>".toList
    "2024".toList "<nav><ul></ul></nav><main></main>".toList
    ⟨"<nav><ul></ul></nav><main>".toList, [], by decide⟩
    ⟨[], by decide, ⟨"<nav><ul>".toList, "<main></main>".toList, by decide⟩⟩).2

end SmartLearn

namespace SmartLearn

/-! ## Claim C1: `create_new_section` on malformed documents -/

/-- C1 (amended).  `create_new_section` cannot fail: on a document lacking
both a recognizable `</ul>…</nav>` ToC closing pair and a `</main>`
content-closing marker, it still reports success and silently returns the
document unchanged — no new section, no ToC entry, no failure signal. -/
theorem create_section_malformed_silent_success (sid title nc ts doc : List Char)
    (hmain : ∀ p < doc.length, ¬ mainClose.isPrefixOf (doc.drop p) = true)
    (htoc : ∀ p < doc.length, tocM sid title (doc.drop p) = none) :
    create_new_section sid title nc ts doc = (doc, true) := by
  simp only [create_new_section]
  rw [scanSub_none matcherOK_tocM doc doc.length htoc le_rfl]
  rw [pyReplace, scanSub_none (matcherOK_litM (by decide)) doc doc.length
    (fun p hp => litM_none (hmain p hp)) le_rfl]

/-- Witness for the amended C1 on a concrete marker-free document. -/
theorem create_section_malformed_silent_success_witness :
    create_new_section "k8s".toList "K8s".toList "<p>y</p>".toList
      "2025".toList "<div></div>".toList
      = ("<div></div>".toList, true) :=
  create_section_malformed_silent_success "k8s".toList "K8s".toList
    "<p>y</p>".toList "2025".toList "<div></div>".toList (by decide) (by decide)

/-- Counterexample to C1 as stated: on a document with neither marker,
`create_new_section` reports success while the document is left without the
new section (no `id="docker"` anywhere), instead of failing explicitly. -/
theorem create_section_malformed_cex :
    create_new_section "docker".toList "Docker".toList "<p>x</p>".toList
      "2024".toList "hello".toList
      = ("hello".toList, true) ∧
    find_section_in_file "hello".toList "docker".toList = false := by
  constructor
  · decide
  · decide

end SmartLearn

namespace SmartLearn

/-! ## The chunker: claims C2, C4, C8 -/

lemma splitOnDelim_no_newline :
    ∀ (l : List Char), (∀ c ∈ l, c ≠ '\n') → splitOnDelim l = [l] := by
  suffices h : ∀ (n : Nat) (l : List Char), l.length ≤ n →
      (∀ c ∈ l, c ≠ '\n') → splitOnDelim l = [l] by
    exact fun l hl => h l.length l le_rfl hl
  intro n
  induction n with
  | zero =>
    intro l hl _
    have : l = [] := List.eq_nil_of_length_eq_zero (by omega)
    subst this
    rfl
  | succ n ih =>
    intro l hl hne
    cases l with
    | nil => rfl
    | cons c₁ rest =>
      cases rest with
      | nil => rfl
      | cons c₂ rest₂ =>
        rw [splitOnDelim, if_neg (by
          intro hand
          exact hne c₁ (by simp) hand.1)]
        have hrec := ih (c₂ :: rest₂) (by simp at hl ⊢; omega)
          (fun c hc => hne c (List.mem_cons_of_mem _ hc))
        rw [hrec]

lemma dropWhile_nl2 : nl2.dropWhile isWS = [] := rfl

lemma length_pyStrip_le (l : List Char) : (pyStrip l).length ≤ l.length := by
  rw [pyStrip]
  calc ((l.dropWhile isWS).reverse.dropWhile isWS).reverse.length
      = ((l.dropWhile isWS).reverse.dropWhile isWS).length := by
        rw [List.length_reverse]
    _ ≤ (l.dropWhile isWS).reverse.length := (List.dropWhile_suffix isWS).length_le
    _ = (l.dropWhile isWS).length := by rw [List.length_reverse]
    _ ≤ l.length := (List.dropWhile_suffix isWS).length_le

/-- Stripping a buffer that ends in the appended `"\n\n"` removes at least
that delimiter. -/
lemma pyStrip_append_nl2_le (x : List Char) :
    (pyStrip (x ++ nl2)).length ≤ x.length := by
  rw [pyStrip, List.dropWhile_append]
  split
  · next =>
    rw [dropWhile_nl2]
    simp
  · next =>
    rw [show ((x.dropWhile isWS ++ nl2).reverse : List Char)
      = '\n' :: '\n' :: (x.dropWhile isWS).reverse by simp [nl2]]
    rw [show (('\n' :: '\n' :: (x.dropWhile isWS).reverse).dropWhile isWS : List Char)
      = (x.dropWhile isWS).reverse.dropWhile isWS by
        rw [List.dropWhile_cons, if_pos (by decide), List.dropWhile_cons,
          if_pos (by decide)]]
    calc ((x.dropWhile isWS).reverse.dropWhile isWS).reverse.length
        = ((x.dropWhile isWS).reverse.dropWhile isWS).length := by
          rw [List.length_reverse]
      _ ≤ (x.dropWhile isWS).reverse.length := (List.dropWhile_suffix isWS).length_le
      _ = (x.dropWhile isWS).length := by rw [List.length_reverse]
      _ ≤ x.length := (List.dropWhile_suffix isWS).length_le

/-- The accumulation loop never emits a chunk longer than the limit, as long
as no single paragraph exceeds it. -/
lemma accumChunks_le (size : Nat) :
    ∀ (ps : List (List Char)) (cur : List Char),
      (∀ p ∈ ps, p.length ≤ size) → (pyStrip cur).length ≤ size →
      ∀ c ∈ accumChunks size ps cur, c.length ≤ size := by
  intro ps
  induction ps with
  | nil =>
    intro cur _ hcur c hc
    rw [accumChunks] at hc
    split at hc
    · simp at hc
    · simp only [List.mem_singleton] at hc
      subst hc
      exact hcur
  | cons p ps ih =>
    intro cur hps hcur c hc
    rw [accumChunks] at hc
    split at hc
    · next hfit =>
      refine ih (cur ++ p ++ nl2) (fun q hq => hps q (List.mem_cons_of_mem _ hq)) ?_ c hc
      calc (pyStrip (cur ++ p ++ nl2)).length ≤ (cur ++ p).length :=
            pyStrip_append_nl2_le (cur ++ p)
        _ ≤ size := by simp only [List.length_append]; omega
    · next hnofit =>
      simp only [List.mem_append] at hc
      rcases hc with hc | hc
      · split at hc
        · simp at hc
        · simp only [List.mem_singleton] at hc
          subst hc
          exact hcur
      · refine ih (p ++ nl2) (fun q hq => hps q (List.mem_cons_of_mem _ hq)) ?_ c hc
        calc (pyStrip (p ++ nl2)).length ≤ p.length := pyStrip_append_nl2_le p
          _ ≤ size := hps p (List.mem_cons_self _ _)

lemma glueParas_nil : glueParas [] = [] := rfl

lemma glueParas_ne_nil {g : List (List Char)} (h : g ≠ []) : glueParas g ≠ [] := by
  cases g with
  | nil => exact absurd rfl h
  | cons p g' =>
    simp [glueParas, nl2]

lemma glueParas_snoc (g : List (List Char)) (p : List Char) :
    glueParas (g ++ [p]) = glueParas g ++ (p ++ nl2) := by
  simp [glueParas]

/-- The accumulation loop partitions the paragraph sequence into consecutive
nonempty groups, in order, one group per emitted chunk. -/
lemma accumChunks_grouping (size : Nat) :
    ∀ (ps : List (List Char)) (g0 : List (List Char)),
      ∃ gs : List (List (List Char)),
        gs.flatten = g0 ++ ps ∧ (∀ g ∈ gs, g ≠ []) ∧
        accumChunks size ps (glueParas g0) =
          gs.map (fun g => pyStrip (glueParas g)) := by
  intro ps
  induction ps with
  | nil =>
    intro g0
    by_cases hg : g0 = []
    · subst hg
      exact ⟨[], by simp, by simp, by simp [accumChunks, glueParas_nil]⟩
    · refine ⟨[g0], by simp, by simpa using hg, ?_⟩
      rw [accumChunks, if_neg (glueParas_ne_nil hg)]
      simp
  | cons p ps ih =>
    intro g0
    rw [accumChunks]
    split
    · next hfit =>
      obtain ⟨gs, h1, h2, h3⟩ := ih (g0 ++ [p])
      rw [glueParas_snoc, ← List.append_assoc] at h3
      exact ⟨gs, by simp [h1], h2, h3⟩
    · next hnofit =>
      obtain ⟨gs, h1, h2, h3⟩ := ih [p]
      have hg3 : accumChunks size ps (p ++ nl2) =
          gs.map (fun g => pyStrip (glueParas g)) := by
        have : glueParas [p] = p ++ nl2 := by simp [glueParas]
        rwa [this] at h3
      by_cases hg : g0 = []
      · subst hg
        rw [glueParas_nil]
        refine ⟨gs, by simpa using h1, h2, ?_⟩
        simp [hg3]
      · rw [if_neg (glueParas_ne_nil hg)]
        refine ⟨g0 :: gs, ?_, ?_, ?_⟩
        · simp [h1]
        · intro g hgmem
          rcases List.mem_cons.mp hgmem with rfl | hmem
          · exact hg
          · exact h2 g hmem
        · simp [hg3]

end SmartLearn

namespace SmartLearn

lemma sliceByFuel_nil (size : Nat) : ∀ f, sliceByFuel size f [] = [] := by
  intro f
  cases f <;> rfl

lemma sliceByFuel_flatten (size : Nat) (hsz : 0 < size) :
    ∀ (f : Nat) (l : List Char), l.length ≤ f →
      (sliceByFuel size f l).flatten = l := by
  intro f
  induction f with
  | zero =>
    intro l hl
    have : l = [] := List.eq_nil_of_length_eq_zero (by omega)
    subst this
    rfl
  | succ f ih =>
    intro l hl
    cases l with
    | nil => rfl
    | cons c cs =>
      rw [sliceByFuel]
      simp only [List.flatten_cons]
      rw [ih ((c :: cs).drop size) (by simp at hl ⊢; omega)]
      exact List.take_append_drop size (c :: cs)

lemma sliceByFuel_le (size : Nat) :
    ∀ (f : Nat) (l : List Char), ∀ s ∈ sliceByFuel size f l, s.length ≤ size := by
  intro f
  induction f with
  | zero =>
    intro l s hs
    simp [sliceByFuel] at hs
  | succ f ih =>
    intro l s hs
    cases l with
    | nil => simp [sliceByFuel] at hs
    | cons c cs =>
      rw [sliceByFuel] at hs
      rcases List.mem_cons.mp hs with rfl | hmem
      · simp [List.length_take]
      · exact ih _ s hmem

/-- Every slice but the last has exactly the requested size. -/
lemma sliceByFuel_dropLast (size : Nat) :
    ∀ (f : Nat) (l : List Char),
      ∀ s ∈ (sliceByFuel size f l).dropLast, s.length = size := by
  intro f
  induction f with
  | zero =>
    intro l s hs
    simp [sliceByFuel] at hs
  | succ f ih =>
    intro l s hs
    cases l with
    | nil => simp [sliceByFuel] at hs
    | cons c cs =>
      rw [sliceByFuel] at hs
      cases hrec : sliceByFuel size f ((c :: cs).drop size) with
      | nil =>
        rw [hrec] at hs
        simp at hs
      | cons a t =>
        rw [hrec, List.dropLast_cons_of_ne_nil (by simp)] at hs
        rcases List.mem_cons.mp hs with rfl | hmem
        · have hdropne : (c :: cs).drop size ≠ [] := by
            intro hd
            rw [hd, sliceByFuel_nil] at hrec
            simp at hrec
          have hlt : size < (c :: cs).length := by
            by_contra hcon
            push_neg at hcon
            exact hdropne (List.drop_eq_nil_of_le hcon)
          simp only [List.length_take]
          omega
        · rw [← hrec] at hmem
          exact ih _ s hmem

lemma forceSplit_le (size : Nat) (chunks : List (List Char)) :
    ∀ c ∈ forceSplit size chunks, c.length ≤ size := by
  intro c hc
  rw [forceSplit, List.mem_flatten] at hc
  obtain ⟨l, hl, hcl⟩ := hc
  rw [List.mem_map] at hl
  obtain ⟨d, hd, rfl⟩ := hl
  by_cases hlen : size < d.length
  · rw [if_pos hlen] at hcl
    exact sliceByFuel_le size _ d c hcl
  · rw [if_neg hlen] at hcl
    simp only [List.mem_singleton] at hcl
    subst hcl
    omega

lemma forceSplit_of_le (size : Nat) :
    ∀ (chunks : List (List Char)), (∀ c ∈ chunks, c.length ≤ size) →
      forceSplit size chunks = chunks := by
  intro chunks
  induction chunks with
  | nil => intro _; rfl
  | cons c cs ih =>
    intro h
    simp only [forceSplit, List.map_cons, List.flatten_cons]
    rw [if_neg (by have := h c (List.mem_cons_self _ _); omega)]
    have hrec := ih (fun d hd => h d (List.mem_cons_of_mem _ hd))
    simp only [forceSplit] at hrec
    rw [hrec]
    rfl

/-! ## Claim C8: short content is returned unchanged -/

/-- C8.  Content no longer than the limit — including empty and
whitespace-only content — is returned as a single chunk equal to the input,
in both scripts. -/
theorem chunk_short_identity :
    (∀ (content : List Char) (size : Nat), content.length ≤ size →
      chunk_content content size = [content]) ∧
    (∀ content : List Char, content.length ≤ 6000 →
      chunk_content_v3 content = [content]) := by
  constructor
  · intro content size h
    rw [chunk_content, if_pos h]
  · intro content h
    rw [chunk_content_v3, if_pos h]

/-- Witness for C8: the empty string and a whitespace-only string. -/
theorem chunk_short_identity_witness :
    chunk_content [] 0 = [[]] ∧ chunk_content_v3 "   ".toList = ["   ".toList] :=
  ⟨chunk_short_identity.1 [] 0 (by decide),
   chunk_short_identity.2 "   ".toList (by decide)⟩

/-! ## Claim C4: bounded chunks in original order -/

/-- C4.  If the content is longer than the limit but no paragraph exceeds
it, every returned chunk is within the limit, and the chunks are exactly the
stripped joins of consecutive groups of the paragraph sequence, in original
order.  Under these hypotheses both scripts agree (the force-split pass of
`smart_learn.py` has nothing to do). -/
theorem chunk_bounded_ordered (content : List Char) (size : Nat)
    (hlong : size < content.length)
    (hpara : ∀ p ∈ splitOnDelim content, p.length ≤ size) :
    (∀ c ∈ chunk_content content size, c.length ≤ size) ∧
    (∃ gs : List (List (List Char)),
      gs.flatten = splitOnDelim content ∧ (∀ g ∈ gs, g ≠ []) ∧
      chunk_content content size = gs.map (fun g => pyStrip (glueParas g))) ∧
    (size = 6000 → chunk_content_v3 content = chunk_content content size) := by
  have hnle : ¬ content.length ≤ size := by omega
  have haccle : ∀ c ∈ accumChunks size (splitOnDelim content) [], c.length ≤ size :=
    accumChunks_le size _ [] hpara (by simp [pyStrip])
  have hcc : chunk_content content size = accumChunks size (splitOnDelim content) [] := by
    rw [chunk_content, if_neg hnle, forceSplit_of_le size _ haccle]
  refine ⟨?_, ?_, ?_⟩
  · intro c hc
    rw [hcc] at hc
    exact haccle c hc
  · obtain ⟨gs, h1, h2, h3⟩ := accumChunks_grouping size (splitOnDelim content) []
    rw [glueParas_nil] at h3
    exact ⟨gs, by simpa using h1, h2, by rw [hcc, h3]⟩
  · intro hsz
    subst hsz
    rw [chunk_content_v3, if_neg hnle, hcc]

/-- Witness for C4 on two short paragraphs with limit 4. -/
theorem chunk_bounded_ordered_witness :
    ("aa".toList : List Char).length ≤ 4 :=
  (chunk_bounded_ordered "aa\n\nbb".toList 4 (by decide) (by decide)).1
    "aa".toList (by decide)

end SmartLearn

namespace SmartLearn

/-! ## Claim C2: the force-split pass -/

lemma chunk_content_le_all :
    ∀ (content : List Char) (size : Nat), ∀ c ∈ chunk_content content size,
      c.length ≤ size := by
  intro content size c hc
  rw [chunk_content] at hc
  split at hc
  · next h =>
    simp only [List.mem_singleton] at hc
    subst hc
    omega
  · exact forceSplit_le size _ c hc

lemma replicate_a_no_newline (n : Nat) : ∀ c ∈ List.replicate n 'a', c ≠ '\n' := by
  intro c hc
  rw [List.eq_of_mem_replicate hc]
  decide

lemma dropWhile_replicate_a (n : Nat) :
    (List.replicate n 'a').dropWhile isWS = List.replicate n 'a' := by
  cases n with
  | zero => rfl
  | succ m =>
    rw [List.replicate_succ, List.dropWhile_cons, if_neg (by decide)]

lemma pyStrip_replicate_nl2 (n : Nat) :
    pyStrip (List.replicate n 'a' ++ nl2) = List.replicate n 'a' := by
  cases n with
  | zero => rfl
  | succ m =>
    rw [pyStrip]
    rw [show ((List.replicate (m + 1) 'a' ++ nl2).dropWhile isWS : List Char)
      = List.replicate (m + 1) 'a' ++ nl2 by
        rw [List.replicate_succ, List.cons_append, List.dropWhile_cons,
          if_neg (by decide)]]
    rw [show ((List.replicate (m + 1) 'a' ++ nl2).reverse : List Char)
      = '\n' :: '\n' :: (List.replicate (m + 1) 'a').reverse by simp [nl2]]
    rw [List.dropWhile_cons, if_pos (by decide), List.dropWhile_cons,
      if_pos (by decide), List.reverse_replicate, dropWhile_replicate_a,
      List.reverse_replicate]

lemma accum_single_big (n : Nat) (hn : 6000 ≤ n) :
    accumChunks 6000 [List.replicate n 'a'] [] = [List.replicate n 'a'] := by
  rw [accumChunks, if_neg (by simp only [List.length_nil, List.length_replicate]; omega),
    if_pos rfl, List.nil_append, accumChunks, if_neg (by simp [nl2]),
    pyStrip_replicate_nl2]

lemma sliceByFuel_replicate_step (f n : Nat) (hn : 0 < n) :
    sliceByFuel 6000 (f + 1) (List.replicate n 'a')
      = List.replicate (min 6000 n) 'a' ::
        sliceByFuel 6000 f (List.replicate (n - 6000) 'a') := by
  cases n with
  | zero => omega
  | succ m =>
    rw [List.replicate_succ, sliceByFuel, ← List.replicate_succ,
      List.take_replicate, List.drop_replicate]

lemma sliceBy_replicate_20000 :
    sliceBy 6000 (List.replicate 20000 'a')
      = [List.replicate 6000 'a', List.replicate 6000 'a',
         List.replicate 6000 'a', List.replicate 2000 'a'] := by
  rw [sliceBy, List.length_replicate]
  have s1 := sliceByFuel_replicate_step 19999 20000 (by norm_num)
  rw [show min 6000 20000 = 6000 by omega, show 20000 - 6000 = 14000 by omega,
    show (19999 : Nat) + 1 = 20000 from rfl] at s1
  have s2 := sliceByFuel_replicate_step 19998 14000 (by norm_num)
  rw [show min 6000 14000 = 6000 by omega, show 14000 - 6000 = 8000 by omega,
    show (19998 : Nat) + 1 = 19999 from rfl] at s2
  have s3 := sliceByFuel_replicate_step 19997 8000 (by norm_num)
  rw [show min 6000 8000 = 6000 by omega, show 8000 - 6000 = 2000 by omega,
    show (19997 : Nat) + 1 = 19998 from rfl] at s3
  have s4 := sliceByFuel_replicate_step 19996 2000 (by norm_num)
  rw [show min 6000 2000 = 2000 by omega, show 2000 - 6000 = 0 by omega,
    show (19996 : Nat) + 1 = 19997 from rfl] at s4
  rw [s1, s2, s3, s4, show List.replicate 0 'a' = ([] : List Char) from rfl,
    sliceByFuel_nil]

lemma chunk_content_20000 :
    chunk_content (List.replicate 20000 'a') 6000
      = [List.replicate 6000 'a', List.replicate 6000 'a',
         List.replicate 6000 'a', List.replicate 2000 'a'] := by
  rw [chunk_content, if_neg (by rw [List.length_replicate]; omega),
    splitOnDelim_no_newline _ (replicate_a_no_newline 20000),
    accum_single_big 20000 (by norm_num)]
  simp only [forceSplit, List.map_cons, List.map_nil, List.flatten_cons,
    List.flatten_nil]
  rw [if_pos (by rw [List.length_replicate]; omega), sliceBy_replicate_20000]
  rfl

/-- C2 (amended, for `smart_learn.py`'s `chunk_content`).  The force-split
pass caps every returned chunk at `max_size`; the slicing it uses cuts a
string into consecutive slices whose concatenation is the input, all of
exact size `max_size` except possibly the last; and the 20,000-character
single paragraph with `max_size = 6000` yields exactly 4 chunks of sizes
6000, 6000, 6000, 2000, in order.  (`smart_learn_v3.py` has no such pass —
see the counterexample.) -/
theorem chunk_force_split :
    (∀ (content : List Char) (size : Nat), ∀ c ∈ chunk_content content size,
      c.length ≤ size) ∧
    (∀ (size : Nat) (l : List Char), 0 < size →
      (sliceBy size l).flatten = l ∧
      ∀ s ∈ (sliceBy size l).dropLast, s.length = size) ∧
    (chunk_content (List.replicate 20000 'a') 6000).map List.length
      = [6000, 6000, 6000, 2000] ∧
    (chunk_content (List.replicate 20000 'a') 6000).flatten
      = List.replicate 20000 'a' := by
  refine ⟨chunk_content_le_all, ?_, ?_, ?_⟩
  · intro size l hsz
    exact ⟨sliceByFuel_flatten size hsz l.length l le_rfl,
      sliceByFuel_dropLast size l.length l⟩
  · rw [chunk_content_20000]
    simp only [List.map_cons, List.map_nil, List.length_replicate]
  · rw [chunk_content_20000]
    simp only [List.flatten_cons, List.flatten_nil, List.append_nil,
      ← List.replicate_add]

/-- Witness for C2's quantified parts at concrete inputs. -/
theorem chunk_force_split_witness :
    (['a'] : List Char).length ≤ 1 ∧ (sliceBy 1 "ab".toList).flatten = "ab".toList :=
  ⟨chunk_force_split.1 "ab".toList 1 ['a'] (by decide),
   (chunk_force_split.2.1 1 "ab".toList (by decide)).1⟩

/-- Counterexample to C2 as stated for `smart_learn_v3.py`: its
`chunk_content` has no force-split pass, so the 20,000-character paragraph
comes back as a single 20,000-character chunk instead of 4 slices. -/
theorem chunk_force_split_cex :
    (chunk_content_v3 (List.replicate 20000 'a')).map List.length = [20000] ∧
    (chunk_content_v3 (List.replicate 20000 'a')).length ≠ 4 := by
  have hv3 : chunk_content_v3 (List.replicate 20000 'a')
      = [List.replicate 20000 'a'] := by
    rw [chunk_content_v3, if_neg (by rw [List.length_replicate]; omega),
      splitOnDelim_no_newline _ (replicate_a_no_newline 20000),
      accum_single_big 20000 (by norm_num)]
  rw [hv3]
  constructor
  · simp only [List.map_cons, List.map_nil, List.length_replicate]
  · simp only [List.length_cons, List.length_nil]
    omega

end SmartLearn
